import Mathlib

/-!
Verification of the JSON→store reconciliation engine in
`scripts/sync_from_general.js` (and the `normalizeCodigo` variant in the
unnamed companion script).  Every definition below is a shallow embedding
of the corresponding JavaScript function; machine numbers are modelled as
`Int` (the values flowing through the quantity pipeline are integers),
JavaScript `null`/`undefined` as `Option`, and the external store as an
explicit list of rows threaded through the chunked loop.
-/

namespace SyncGeneral

/-! ## String primitives (JS semantics, ASCII inputs) -/

/-- Whitespace recognised by JS `trim` / `\s` (ASCII subset; the data this
script processes is ASCII). -/
def isWsChar (c : Char) : Bool :=
  c = ' ' || c = '\t' || c = '\n' || c = '\r' || c = '\x0b' || c = '\x0c'

/-- Model of JS `String.prototype.trim`. -/
def jsTrim (s : String) : String :=
  ⟨((s.data.dropWhile isWsChar).reverse.dropWhile isWsChar).reverse⟩

/-- Test that `p` is a prefix of `l` (char lists). -/
def listStarts : List Char → List Char → Bool
  | [], _ => true
  | _ :: _, [] => false
  | p :: ps, c :: cs => p = c && listStarts ps cs

/-- First string is a prefix of the second (JS `startsWith`). -/
def strStarts (p s : String) : Bool := listStarts p.data s.data

/-- Test that `p` occurs as a contiguous sublist of the second list (a JS
regex without anchors, e.g. `/0000-00-00/.test(s)`). -/
def listContainsSeq (p : List Char) : List Char → Bool
  | [] => listStarts p []
  | c :: cs => listStarts p (c :: cs) || listContainsSeq p cs

def strContainsSeq (p s : String) : Bool := listContainsSeq p.data s.data

/-! ## Scalar normalizers from `scripts/sync_from_general.js` -/

/-- The `isLikelyZeroDate` helper (lines 74-81): four sentinel patterns —
contains `0000-00-00`; starts with `0000-00-00` (subsumed); starts with
`0000/` or `0000-`; or its digit projection is exactly eight zeros. -/
def isLikelyZeroDate (s : String) : Bool :=
  if s = "" then false
  else
    strContainsSeq "0000-00-00" s
      || strStarts "0000-00-00" s
      || strStarts "0000/" s || strStarts "0000-" s
      || (let ds := s.data.filter Char.isDigit
          ds.length = 8 && ds.all (· = '0'))

/-- Tail of the `parseDateString` regex: optional `\s+HH:MM[:SS]`,
defaulting/completing to `HH:MM:SS`. -/
def parseTimeTail (rest : List Char) : Option (List Char) :=
  if rest = [] then some ['0', '0', ':', '0', '0', ':', '0', '0']
  else if (rest.takeWhile isWsChar) = [] then none
  else
    match rest.dropWhile isWsChar with
    | [h1, h2, ':', n1, n2] =>
      if [h1, h2, n1, n2].all Char.isDigit then
        some [h1, h2, ':', n1, n2, ':', '0', '0']
      else none
    | [h1, h2, ':', n1, n2, ':', s1, s2] =>
      if [h1, h2, n1, n2, s1, s2].all Char.isDigit then
        some [h1, h2, ':', n1, n2, ':', s1, s2]
      else none
    | _ => none

/-- The `parseDateString` helper (lines 63-72): recognises
`DD/MM/YYYY[ HH:MM[:SS]]` and rebuilds `YYYY-MM-DDTHH:MM:SSZ`.
`null`, non-strings and `''` (falsy) give `null`; no calendar check. -/
def parseDateString : Option String → Option String
  | none => none
  | some v =>
    if v = "" then none
    else
      match (jsTrim v).data with
      | d1 :: d2 :: '/' :: m1 :: m2 :: '/' :: y1 :: y2 :: y3 :: y4 :: rest =>
        if [d1, d2, m1, m2, y1, y2, y3, y4].all Char.isDigit then
          match parseTimeTail rest with
          | some t =>
            some ⟨[y1, y2, y3, y4, '-', m1, m2, '-', d1, d2, 'T'] ++ t ++ ['Z']⟩
          | none => none
        else none
      | _ => none

/-- Shape test for `/^\d{4}-\d{2}-\d{2}T\d{2}:\d{2}:\d{2}Z$/`. -/
def isoTZShape (s : String) : Bool :=
  match s.data with
  | [y1, y2, y3, y4, '-', m1, m2, '-', d1, d2, 'T',
     h1, h2, ':', n1, n2, ':', s1, s2, 'Z'] =>
    [y1, y2, y3, y4, m1, m2, d1, d2, h1, h2, n1, n2, s1, s2].all Char.isDigit
  | _ => false

/-- Shape test for `/^\d{4}-\d{2}-\d{2}\s+\d{2}:\d{2}:\d{2}$/`. -/
def isoSpaceShape (s : String) : Bool :=
  let cs := s.data
  (match cs.take 10 with
   | [y1, y2, y3, y4, '-', m1, m2, '-', d1, d2] =>
     [y1, y2, y3, y4, m1, m2, d1, d2].all Char.isDigit
   | _ => false)
  &&
  (let rest := cs.drop 10
   (rest.takeWhile isWsChar) ≠ [] &&
   (match rest.dropWhile isWsChar with
    | [h1, h2, ':', n1, n2, ':', s1, s2] =>
      [h1, h2, n1, n2, s1, s2].all Char.isDigit
    | _ => false))

def digitVal (c : Char) : Nat := c.toNat - '0'.toNat

def digitsToNat (cs : List Char) : Nat :=
  cs.foldl (fun a c => a * 10 + digitVal c) 0

def isLeapYear (y : Nat) : Bool :=
  (y % 4 = 0 && y % 100 ≠ 0) || y % 400 = 0

def daysInMonth (y m : Nat) : Nat :=
  if m = 2 then (if isLeapYear y then 29 else 28)
  else if m = 4 || m = 6 || m = 9 || m = 11 then 30
  else 31

/-- Model of `Date.parse` restricted to strings of the strict ISO shape
`YYYY-MM-DDTHH:MM:SSZ`: valid iff the fields form a real calendar
date-time (V8 rejects out-of-range fields for ISO strings; `24:00:00` is
accepted as midnight).  The lenient legacy parser for other shapes is not
modelled — the engine only ever reaches `Date.parse` with strings of this
shape built from the two ISO regexes above. -/
def isoParseValid (s : String) : Bool :=
  match s.data with
  | [y1, y2, y3, y4, '-', m1, m2, '-', d1, d2, 'T',
     h1, h2, ':', n1, n2, ':', s1, s2, 'Z'] =>
    if [y1, y2, y3, y4, m1, m2, d1, d2, h1, h2, n1, n2, s1, s2].all Char.isDigit
    then
      let y := digitsToNat [y1, y2, y3, y4]
      let m := digitsToNat [m1, m2]
      let d := digitsToNat [d1, d2]
      let hh := digitsToNat [h1, h2]
      let mm := digitsToNat [n1, n2]
      let ss := digitsToNat [s1, s2]
      (1 ≤ m && m ≤ 12 && 1 ≤ d && d ≤ daysInMonth y m) &&
        ((hh ≤ 23 && mm ≤ 59 && ss ≤ 59) || (hh = 24 && mm = 0 && ss = 0))
    else false
  | _ => false

/-- Replace the first `' '` character, if any (JS `s.replace(' ', 'T')`
with a string pattern replaces only the first occurrence). -/
def replaceFirstSpace : List Char → List Char
  | [] => []
  | c :: cs => if c = ' ' then 'T' :: cs else c :: replaceFirstSpace cs

/-- The `sanitizeDateValue` normalizer (lines 83-107) on `null`/string inputs (the
`Date`-instance and non-string branches of the JS function map to
`toISOString`/`null` and are outside the inputs the engine feeds it). -/
def sanitizeDateValue : Option String → Option String
  | none => none
  | some v =>
    let s := jsTrim v
    if s = "" then none
    else if isLikelyZeroDate s || strStarts "0000" s then none
    else if isoTZShape s then
      if strStarts "0000-" s then none
      else if isoParseValid s then some s else none
    else if isoSpaceShape s then
      let s2 : String := ⟨replaceFirstSpace s.data ++ ['Z']⟩
      if strStarts "0000-" s2 then none
      else if isoParseValid s2 then some s2 else none
    else
      match parseDateString (some s) with
      | some p => some p
      | none => none

/-- Character class `\w` plus `-` and `.` (the `[^\w\-\._]` strip set). -/
def isCodigoChar (c : Char) : Bool :=
  c.isAlpha || c.isDigit || c = '_' || c = '-' || c = '.'

/-- The `normalizeCodigo` normalizer (scripts/sync_from_general.js lines
109-115):
trims, rejects the empty trim, then strips characters outside
`[A-Za-z0-9_.-]`.  Note the emptiness check happens BEFORE stripping, so
the result can be the empty string. -/
def normalizeCodigo : Option String → Option String
  | none => none
  | some v =>
    let s := jsTrim v
    if s = "" then none
    else some ⟨s.data.filter isCodigoChar⟩

/-- The `normalizeCodigo` variant of the unnamed companion script (part_001 lines
99-108): trims, strips, removes leading zeros, and maps an empty result
to `null`. -/
def normalizeCodigoZeroStrip : Option String → Option String
  | none => none
  | some v =>
    let s := jsTrim v
    let s1 : String := ⟨s.data.filter isCodigoChar⟩
    let s2 : String := ⟨s1.data.dropWhile (· = '0')⟩
    if s2 = "" then none else some s2

/-! ## Association lists (JS `Map`, insertion-ordered) -/

/-- First binding of `k`, scanning left to right (JS `Map.get`). -/
def alGet {α : Type} : List (String × α) → String → Option α
  | [], _ => none
  | (k, v) :: t, k' => if k = k' then some v else alGet t k'

/-- Replace the first binding of `k` in place (JS `Map.set` on a present
key keeps the entry's position). -/
def alSet {α : Type} : List (String × α) → String → α → List (String × α)
  | [], _, _ => []
  | (k, v) :: t, k', v' =>
    if k = k' then (k, v') :: t else (k, v) :: alSet t k' v'

/-- Model of `Array.from(new Set(xs))`: keep first occurrences. -/
def dedupFirst (l : List String) : List String := go l []
where
  go : List String → List String → List String
    | [], _ => []
    | x :: xs, seen =>
      if seen.contains x then go xs seen else x :: go xs (x :: seen)

/-- The `for (let i = 0; i < n; i += batch) slice(i, i+batch)` chunking.
`fuel` starts at the list length; for `batch ≥ 1` (all call sites) this is
exactly the JS loop. -/
def chunksOfGo {α : Type} (batch : Nat) : Nat → List α → List (List α)
  | _, [] => []
  | 0, _ => []
  | n + 1, l => l.take batch :: chunksOfGo batch n (l.drop batch)

def chunksOf {α : Type} (batch : Nat) (l : List α) : List (List α) :=
  chunksOfGo batch l.length l

/-! ## `syncProductsQuantityComposite` (lines 176-353)

Quantities are modelled as `Int` (the engine's `Number(x) || 0`
coercions act as the identity on integers; `null` is `Option.none`).
The bulk insert is modelled as succeeding — the per-row fallback of
lines 277-327 only runs on backend errors, which the store model does
not produce.  The `.limit(20000)` read cap and server-side row order are
not modelled: the read returns every matching row, in store order. -/

/-- Values of `QUANTITY_MODE` — the source pins the module constant to `'delta'`
(line 21) but branches on it throughout; both branches are modelled. -/
inductive QMode where
  | delta
  | absolute
deriving DecidableEq

/-- Incoming product-line row: the fields `syncProductsQuantityComposite`
reads or writes.  (The remaining payload columns are carried unchanged by
the engine and do not affect any decision.) -/
structure ProdutoRow where
  cliente_codigo : Option String
  produto_codigo : Option String
  id_pedido : Option String
  quantidade : Option Int
  criado_em : Option String
  data_pedido : Option String
deriving DecidableEq

/-- A persisted product-line row, restricted to the columns the engine
selects (`id, cliente_codigo, produto_codigo, quantidade, id_pedido`). -/
structure ExistingRow where
  id : Nat
  cliente_codigo : Option String
  produto_codigo : Option String
  id_pedido : Option String
  quantidade : Option Int
deriving DecidableEq

/-- The `compositeKeyFor` helper (lines 168-173):
`cliente|produto|coalesce(pedido, "0")` with JS `??`, `trim` and `||`. -/
def compositeKeyFor (cliente produto pedido : Option String) : String :=
  let c := jsTrim (cliente.getD "0")
  let c := if c = "" then "0" else c
  let p := jsTrim (produto.getD "")
  let o := match pedido with
    | none => "0"
    | some s => if jsTrim s = "" then "0" else jsTrim s
  c ++ "|" ++ p ++ "|" ++ o

def ProdutoRow.compKey (r : ProdutoRow) : String :=
  compositeKeyFor r.cliente_codigo r.produto_codigo r.id_pedido

def ExistingRow.compKey (e : ExistingRow) : String :=
  compositeKeyFor e.cliente_codigo e.produto_codigo e.id_pedido

/-- Zero-date scrub applied to every string field of a row
(`if (typeof r[k] === 'string' && isLikelyZeroDate(r[k])) r[k] = null`). -/
def scrubZero (v : Option String) : Option String :=
  match v with
  | none => none
  | some s => if isLikelyZeroDate s then none else some s

/-- Per-row normalisation at the top of the chunk loop (lines 183-187):
default a falsy/blank `cliente_codigo` to `"0"`, coerce `quantidade`
(identity on integers, `null` preserved), sanitise a truthy
`data_pedido`, then null out zero-date strings in every field. -/
def normChunkRow (r : ProdutoRow) : ProdutoRow :=
  let cc : Option String := match r.cliente_codigo with
    | none => some "0"
    | some s => if jsTrim s = "" then some "0" else some s
  let dp : Option String := match r.data_pedido with
    | none => none
    | some s => if s = "" then some s else sanitizeDateValue (some s)
  { cliente_codigo := scrubZero cc
    produto_codigo := scrubZero r.produto_codigo
    id_pedido := scrubZero r.id_pedido
    quantidade := r.quantidade
    criado_em := scrubZero r.criado_em
    data_pedido := scrubZero dp }

/-- Merge a same-key row into the accumulated entry (lines 192-201):
delta mode sums (`Number(x) || 0`, so `null` counts as 0), absolute mode
keeps the later value; `criado_em` takes the later truthy value. -/
def mergeInto (mode : QMode) (cur r : ProdutoRow) : ProdutoRow :=
  { cur with
    quantidade :=
      match mode with
      | .delta => some (cur.quantidade.getD 0 + r.quantidade.getD 0)
      | .absolute => r.quantidade
    criado_em :=
      match r.criado_em with
      | none => cur.criado_em
      | some s => if s = "" then cur.criado_em else some s }

/-- One iteration of the `incomingMap` building loop (lines 182-202). -/
def mergeStep (mode : QMode) (m : List (String × ProdutoRow)) (rRaw : ProdutoRow) :
    List (String × ProdutoRow) :=
  let r := normChunkRow rRaw
  let comp := r.compKey
  match alGet m comp with
  | none => m ++ [(comp, r)]
  | some cur => alSet m comp (mergeInto mode cur r)

/-- The aggregated `incomingMap` for one chunk. -/
def buildIncoming (mode : QMode) (chunk : List ProdutoRow) :
    List (String × ProdutoRow) :=
  chunk.foldl (mergeStep mode) []

/-- The `produtoKeys` read set (line 205): deduplicated nonempty trimmed product codes
of the aggregated rows. -/
def produtoKeys (im : List (String × ProdutoRow)) : List String :=
  dedupFirst ((im.map fun kv => jsTrim (kv.2.produto_codigo.getD "")).filter (· ≠ ""))

/-- The `.select(...).in('produto_codigo', produtoKeys)` read
(lines 207-222): skipped entirely when there are no keys. -/
def selectExisting (store : List ExistingRow) (keys : List String) :
    List ExistingRow :=
  if keys = [] then []
  else store.filter fun e =>
    match e.produto_codigo with
    | some p => keys.contains p
    | none => false

/-- One `existingMap` building step (lines 225-231): group fetched rows by
composite key, keeping the row with the largest `id`. -/
def existingStep (m : List (String × ExistingRow)) (e : ExistingRow) :
    List (String × ExistingRow) :=
  let comp := e.compKey
  match alGet m comp with
  | none => m ++ [(comp, e)]
  | some cur => if cur.id < e.id then alSet m comp e else m

def buildExisting (rows : List ExistingRow) : List (String × ExistingRow) :=
  rows.foldl existingStep []

/-- Outcome of the per-key reconciliation decision (lines 237-262). -/
inductive Decision where
  | skip
  | ins (r : ProdutoRow)
  | upd (id : Nat) (q : Int)
deriving DecidableEq

/-- The per-key decision body of the loop at lines 237-262. -/
def decideKey (mode : QMode) (em : List (String × ExistingRow))
    (comp : String) (incoming : ProdutoRow) : Decision :=
  let prodCode := jsTrim (incoming.produto_codigo.getD "")
  if prodCode = "" then .ins incoming
  else
    match alGet em comp with
    | none => .ins incoming
    | some e =>
      let existingQty : Int := e.quantidade.getD 0
      match incoming.quantidade with
      | none => .skip
      | some q =>
        let newQty : Int :=
          match mode with
          | .delta => existingQty + q
          | .absolute => q
        if newQty ≠ existingQty then .upd e.id newQty else .skip

structure ChunkResult where
  inserts : List ProdutoRow
  updates : List (Nat × Int)
deriving DecidableEq

/-- The `existingMap` a chunk is reconciled against. -/
def chunkEM (mode : QMode) (store : List ExistingRow)
    (chunk : List ProdutoRow) : List (String × ExistingRow) :=
  buildExisting (selectExisting store (produtoKeys (buildIncoming mode chunk)))

/-- Insert component of a key's decision (the `inserts.push` arm). -/
def insOf (mode : QMode) (em : List (String × ExistingRow))
    (kv : String × ProdutoRow) : Option ProdutoRow :=
  match decideKey mode em kv.1 kv.2 with
  | .ins r => some r
  | _ => none

/-- Update component of a key's decision (the `updates.push` arm). -/
def updOf (mode : QMode) (em : List (String × ExistingRow))
    (kv : String × ProdutoRow) : Option (Nat × Int) :=
  match decideKey mode em kv.1 kv.2 with
  | .upd i q => some (i, q)
  | _ => none

/-- Process one chunk against the current store: aggregate, read existing
rows, decide insert/update/no-op per composite key. -/
def processChunk (mode : QMode) (store : List ExistingRow)
    (chunk : List ProdutoRow) : ChunkResult :=
  let im := buildIncoming mode chunk
  let em := chunkEM mode store chunk
  { inserts := im.filterMap (insOf mode em)
    updates := im.filterMap (updOf mode em) }

def maxId (store : List ExistingRow) : Nat :=
  store.foldr (fun e m => max e.id m) 0

/-- Effect of the bulk insert (lines 272-334, success path): rows are
appended with fresh store-assigned ids. -/
def applyInserts (store : List ExistingRow) (rows : List ProdutoRow) :
    List ExistingRow :=
  store ++ rows.enum.map fun p =>
    { id := maxId store + 1 + p.1
      cliente_codigo := p.2.cliente_codigo
      produto_codigo := p.2.produto_codigo
      id_pedido := p.2.id_pedido
      quantidade := p.2.quantidade }

/-- Effect of one `.update({quantidade}).eq('id', id)` call. -/
def applyUpdate (store : List ExistingRow) (u : Nat × Int) :
    List ExistingRow :=
  store.map fun e => if e.id = u.1 then { e with quantidade := some u.2 } else e

/-- Store after a chunk's writes: bulk insert first (lines 272-334), then
the queued quantity updates in order (lines 337-348). -/
def applyChunk (store : List ExistingRow) (cr : ChunkResult) :
    List ExistingRow :=
  cr.updates.foldl applyUpdate (applyInserts store cr.inserts)

/-- The chunked loop, threading the store and accumulating the issued
inserts and updates. -/
def runChunks (mode : QMode) :
    List (List ProdutoRow) → List ExistingRow →
    List ProdutoRow × List (Nat × Int) × List ExistingRow
  | [], store => ([], [], store)
  | c :: cs, store =>
    let cr := processChunk mode store c
    let rest := runChunks mode cs (applyChunk store cr)
    (cr.inserts ++ rest.1, cr.updates ++ rest.2.1, rest.2.2)

/-- Model of `syncProductsQuantityComposite(produtosRows, batch)` against an
explicit store, returning the issued inserts, the issued updates, and the
final store. -/
def syncProductsQuantityComposite (mode : QMode) (batch : Nat)
    (produtosRows : List ProdutoRow) (store : List ExistingRow) :
    List ProdutoRow × List (Nat × Int) × List ExistingRow :=
  runChunks mode (chunksOf batch produtosRows) store

/-- Quantity of the persisted row with a given id, if present. -/
def storeQty (store : List ExistingRow) (i : Nat) : Option (Option Int) :=
  (store.find? fun e => e.id = i).map (·.quantidade)

def mkRow (c p o : Option String) (q : Option Int) : ProdutoRow :=
  { cliente_codigo := c, produto_codigo := p, id_pedido := o
    quantidade := q, criado_em := none, data_pedido := none }

/-- Store with existing quantity 5 for key (C1, P1, O1). -/
def exStore : List ExistingRow :=
  [{ id := 1, cliente_codigo := some "C1", produto_codigo := some "P1",
     id_pedido := some "O1", quantidade := some 5 }]

def exRows : List ProdutoRow :=
  [mkRow (some "C1") (some "P1") (some "O1") (some 2),
   mkRow (some "C1") (some "P1") (some "O1") (some 3)]

/-- Single incoming line of quantity 2 for the same key. -/
def exRows2 : List ProdutoRow := [mkRow (some "C1") (some "P1") (some "O1") (some 2)]

/-- Two same-key rows with empty product code (for chunked processing). -/
def exRows3 : List ProdutoRow :=
  [mkRow (some "C1") none (some "O1") (some 1),
   mkRow (some "C1") none (some "O1") (some 1)]

/-- Parametric single-row store for the idempotence analysis. -/
def c2Store (a : Int) : List ExistingRow :=
  [{ id := 1, cliente_codigo := some "C1", produto_codigo := some "P1",
     id_pedido := some "O1", quantidade := some a }]

/-- Parametric single-line document for the idempotence analysis. -/
def c2Rows (q : Int) : List ProdutoRow :=
  [mkRow (some "C1") (some "P1") (some "O1") (some q)]

/-! ## Moved helper definitions (spec-side vocabulary) -/

def alKeys {α : Type} (m : List (String × α)) : List String := m.map (·.1)

/-- Folding a same-key row stream into an optional accumulated entry:
the abstract counterpart of the `incomingMap` update. -/
def mergeAcc (mode : QMode) (o : Option ProdutoRow) (r : ProdutoRow) :
    Option ProdutoRow :=
  some (match o with
        | none => r
        | some cur => mergeInto mode cur r)

/-- The reconciled quantity: delta mode accumulates, absolute replaces. -/
def qNew (mode : QMode) (qOld qIn : Int) : Int :=
  match mode with
  | .delta => qOld + qIn
  | .absolute => qIn

/-! ## JSON document model and `findArrayByHeuristics` (lines 56-61) -/

/-- JSON values as `JSON.parse` produces them.  Parsed objects carry
their fields in insertion order with distinct names. -/
inductive Json where
  | null
  | bool (b : Bool)
  | num (n : Int)
  | str (s : String)
  | arr (elems : List Json)
  | obj (fields : List (String × Json))

/-- Model of JS property access `json[name]`: object fields by name; arrays expose
their elements under canonical index strings (`Object.keys` of an array
is `["0", "1", ...]`).  Primitives have no array-valued properties. -/
def Json.getProp : Json → String → Option Json
  | .obj fs, k => alGet fs k
  | .arr es, k =>
    (List.range es.length).findSome? fun i => if toString i = k then es[i]? else none
  | _, _ => none

/-- Model of `Object.keys(json)` for the shapes the locator inspects. -/
def Json.keys : Json → List String
  | .obj fs => fs.map (·.1)
  | .arr es => (List.range es.length).map (fun i => toString i)
  | _ => []

/-- Whether `json[n]` is an array (`Array.isArray(json[name])`). -/
def Json.isArrProp (j : Json) (n : String) : Bool :=
  match j.getProp n with
  | some (.arr _) => true
  | _ => false

/-- The two property-scanning loops of `findArrayByHeuristics`. -/
def findLoop (j : Json) : List String → Option (List Json)
  | [] => none
  | n :: ns =>
    match j.getProp n with
    | some (.arr es) => some es
    | _ => findLoop j ns

/-- The `findArrayByHeuristics` locator (lines 56-61): first candidate property that
is an array; else first top-level property that is an array; else the
root itself if it is an array; else `[]`. -/
def findArrayByHeuristics (j : Json) (candidateNames : List String) :
    List Json :=
  match findLoop j candidateNames with
  | some es => es
  | none =>
    match findLoop j j.keys with
    | some es => es
    | none =>
      match j with
      | .arr es => es
      | _ => []

/-! ## `deleteOrphansByKey` (lines 356-384) -/

/-- The `toDelete` filter (line 373): keep persisted key values that are
non-null, trim to a nonempty string, and whose trimmed form is absent
from the keep-set. -/
def orphanKeysToDelete (allExisting : List (Option String))
    (keepKeys : List String) : List (Option String) :=
  allExisting.filter fun k =>
    match k with
    | none => false
    | some s => if jsTrim s = "" then false else !(keepKeys.contains (jsTrim s))

/-- Model of `deleteOrphansByKey` reduced to the set of keys it deletes: nothing
when the per-table flag is disabled (lines 357-360), otherwise exactly
the filtered orphans, which are then deleted in chunks (lines 375-382). -/
def deleteOrphansByKey (flagEnabled : Bool)
    (allExisting : List (Option String)) (keepKeys : List String) :
    List (Option String) :=
  if flagEnabled then orphanKeysToDelete allExisting keepKeys else []

/-! ## Ownership resolution in `main` (lines 424-504), projected to the
customer-code fields

A source customer entry is modelled by its three identity fields (the
other payload fields never influence `cliente_codigo` resolution) plus
the presence of embedded `pedidos` / `produtos_comprados` entries. -/

structure ClienteInput where
  codigo : Option String
  cliente_codigo : Option String
  id : Option String
  pedidos : List Unit
  produtos : List Unit
deriving DecidableEq

/-- Falsiness test of a nullable JS string. -/
def jsFalsy : Option String → Bool
  | none => true
  | some s => s = ""

/-- Model of JS `s || '0'` for a string. -/
def jsOrZeroStr (s : String) : String := if s = "" then "0" else s

/-- Model of JS `v || '0'` for a nullable string. -/
def jsOrZero : Option String → String
  | none => "0"
  | some s => jsOrZeroStr s

/-- The `??` chain of line 426: `client.codigo ?? client.cliente_codigo
?? client.id ?? ''`. -/
def firstIdField (c : ClienteInput) : String :=
  match c.codigo with
  | some s => s
  | none =>
    match c.cliente_codigo with
    | some s => s
    | none =>
      match c.id with
      | some s => s
      | none => ""

/-- Line 426: `normalizeCodigo(codigo ?? cliente_codigo ?? id ?? '') || '0'`. -/
def resolveClienteCodigo (c : ClienteInput) : String :=
  jsOrZero (normalizeCodigo (some (firstIdField c)))

/-- Value of `cliente_codigo` on every order row extracted under `c` (line 434 —
the `??` chain short-circuits at the always-non-null resolved customer
code) followed by the zero-date scrub of line 450. -/
def pedidoClienteCodigo (c : ClienteInput) : Option String :=
  scrubZero (some (jsOrZero (normalizeCodigo (some (resolveClienteCodigo c)))))

/-- Value of `cliente_codigo` on every product row extracted under `c` (line 465,
`clienteCodigo || '0'`) followed by the zero-date scrub of line 479. -/
def produtoClienteCodigo (c : ClienteInput) : Option String :=
  scrubZero (some (jsOrZeroStr (resolveClienteCodigo c)))

/-- Lines 401-417 projected to `(codigo, cliente_codigo)`: `pickFields`
keeps only the allowed columns (so `id` and `codigo_cliente` drop out of
the `??` chain of line 404), both codes are normalised and zero-date
scrubbed, and the two mirror fallbacks of lines 406 and 416 apply. -/
def clienteRowCodes (c : ClienteInput) : Option String × Option String :=
  let cod0 : Option String :=
    match c.codigo with
    | some s => some s
    | none => c.cliente_codigo
  let cod1 := normalizeCodigo cod0
  let cli0 : Option String :=
    if jsFalsy c.cliente_codigo && !(jsFalsy cod1) then cod1 else c.cliente_codigo
  let cli1 := normalizeCodigo cli0
  let cod2 := scrubZero cod1
  let cli2 := scrubZero cli1
  let cod3 := if jsFalsy cod2 && !(jsFalsy cli2) then cli2 else cod2
  (cod3, cli2)

/-- Dedup key of line 417: `String(codigo || cliente_codigo || '')`. -/
def clienteDedupKey (p : Option String × Option String) : String :=
  if jsFalsy p.1 then (if jsFalsy p.2 then "" else p.2.getD "") else p.1.getD ""

def dedupeClientesGo : List (Option String × Option String) → List String →
    List (Option String × Option String)
  | [], _ => []
  | r :: t, seen =>
    if seen.contains (clienteDedupKey r) then dedupeClientesGo t seen
    else r :: dedupeClientesGo t (clienteDedupKey r :: seen)

/-- Line 417: keep the first row per dedup key. -/
def dedupeClientes (rows : List (Option String × Option String)) :
    List (Option String × Option String) :=
  dedupeClientesGo rows []

/-- Line 488: `String(c.codigo ?? c.cliente_codigo ?? '').trim()`. -/
def existingCode (p : Option String × Option String) : String :=
  jsTrim ((match p.1 with | some s => some s | none => p.2).getD "")

/-- The customer codes present in the batch about to be written. -/
def existingSet (doc : List ClienteInput) : List String :=
  (dedupeClientes (doc.map clienteRowCodes)).map existingCode

/-- Lines 489-491: trimmed `cliente_codigo` of every extracted order and
product row. -/
def usedCodes (doc : List ClienteInput) : List String :=
  (doc.filter (fun c => !c.pedidos.isEmpty)).map
      (fun c => jsTrim ((pedidoClienteCodigo c).getD ""))
    ++ (doc.filter (fun c => !c.produtos.isEmpty)).map
      (fun c => jsTrim ((produtoClienteCodigo c).getD ""))

/-- Lines 492-494: referenced-but-absent codes, with the sentinel `"0"`
appended when any row resolved to `''` or `"0"` and no `"0"` customer is
in the batch; deduplicated (line 494). -/
def missingCodes (doc : List ClienteInput) : List String :=
  let ex := existingSet doc
  let used := usedCodes doc
  let missing := used.filter (fun c => c ≠ "" && !(ex.contains c))
  let missing2 :=
    if (used.contains "" || used.contains "0") && !(ex.contains "0")
    then missing ++ ["0"] else missing
  dedupFirst missing2

/-! ## Association-list lemmas -/

theorem alGet_append {α : Type} (m m' : List (String × α)) (k : String) :
    alGet (m ++ m') k =
      match alGet m k with
      | some v => some v
      | none => alGet m' k := by
  induction m with
  | nil => simp [alGet]
  | cons kv t ih =>
    obtain ⟨k', v'⟩ := kv
    by_cases h : k' = k <;> simp [alGet, h, ih]

theorem alGet_alSet_self {α : Type} (m : List (String × α)) (k : String) (v : α) :
    alGet (alSet m k v) k = (alGet m k).map fun _ => v := by
  induction m with
  | nil => simp [alGet, alSet]
  | cons kv t ih =>
    obtain ⟨k', v'⟩ := kv
    by_cases h : k' = k <;> simp [alGet, alSet, h, ih]

theorem alGet_alSet_ne {α : Type} (m : List (String × α)) (k k' : String) (v : α)
    (h : k' ≠ k) : alGet (alSet m k v) k' = alGet m k' := by
  induction m with
  | nil => simp [alSet]
  | cons kv t ih =>
    obtain ⟨k0, v0⟩ := kv
    by_cases h0 : k0 = k
    · subst h0
      simp [alSet, alGet, Ne.symm h]
    · by_cases h1 : k0 = k' <;> simp [alSet, alGet, h0, h1, h, ih]

theorem alKeys_alSet {α : Type} (m : List (String × α)) (k : String) (v : α) :
    alKeys (alSet m k v) = alKeys m := by
  induction m with
  | nil => simp [alSet]
  | cons kv t ih =>
    obtain ⟨k0, v0⟩ := kv
    by_cases h : k0 = k
    · simp [alSet, alKeys, h]
    · simp only [alSet, alKeys, h, if_false, List.map_cons, List.cons.injEq,
        true_and]
      simpa [alKeys] using ih

theorem alGet_eq_none_iff {α : Type} (m : List (String × α)) (k : String) :
    alGet m k = none ↔ k ∉ alKeys m := by
  induction m with
  | nil => simp [alGet, alKeys]
  | cons kv t ih =>
    obtain ⟨k0, v0⟩ := kv
    by_cases h : k0 = k
    · simp [alGet, alKeys, h]
    · simp only [alGet, h, if_false, alKeys, List.map_cons, List.mem_cons, ih]
      constructor
      · rintro hk (h1 | h1)
        · exact h h1.symm
        · exact hk h1
      · intro hk h1
        exact hk (Or.inr h1)

theorem alGet_mem {α : Type} {m : List (String × α)} {k : String} {v : α}
    (h : alGet m k = some v) : (k, v) ∈ m := by
  induction m with
  | nil => simp [alGet] at h
  | cons kv t ih =>
    obtain ⟨k0, v0⟩ := kv
    by_cases h0 : k0 = k
    · subst h0
      simp [alGet] at h
      simp [h]
    · simp [alGet, h0] at h
      exact List.mem_cons_of_mem _ (ih h)

theorem mem_alSet {α : Type} {m : List (String × α)} {kv : String × α}
    (k : String) (v : α) (h : kv ∈ alSet m k v) : kv ∈ m ∨ kv = (k, v) := by
  induction m with
  | nil => simp [alSet] at h
  | cons kv0 t ih =>
    obtain ⟨k0, v0⟩ := kv0
    by_cases h0 : k0 = k
    · subst h0
      simp [alSet] at h
      rcases h with h | h
      · right; simp [h]
      · left; exact List.mem_cons_of_mem _ h
    · simp [alSet, h0] at h
      rcases h with h | h
      · left; simp [h]
      · rcases ih h with h1 | h1
        · left; exact List.mem_cons_of_mem _ h1
        · right; exact h1

/-- With duplicate-free keys, a successful lookup splits the list into a
unique occurrence of the key with key-free flanks. -/
theorem alGet_split {α : Type} {m : List (String × α)} {k : String} {v : α}
    (hnd : (alKeys m).Nodup) (h : alGet m k = some v) :
    ∃ l1 l2, m = l1 ++ (k, v) :: l2 ∧ k ∉ alKeys l1 ∧ k ∉ alKeys l2 := by
  induction m with
  | nil => simp [alGet] at h
  | cons kv0 t ih =>
    obtain ⟨k0, v0⟩ := kv0
    simp only [alKeys, List.map_cons, List.nodup_cons] at hnd
    by_cases h0 : k0 = k
    · subst h0
      simp [alGet] at h
      exact ⟨[], t, by simp [h], by simp [alKeys], by simpa [alKeys] using hnd.1⟩
    · simp [alGet, h0] at h
      obtain ⟨l1, l2, hsplit, h1, h2⟩ := ih hnd.2 h
      exact ⟨(k0, v0) :: l1, l2, by simp [hsplit], by
        simp [alKeys] at h1 ⊢
        exact ⟨fun he => h0 he.symm, h1⟩, h2⟩

theorem mem_dedupFirst_go {l : List String} {seen : List String} {x : String}
    (h : x ∈ dedupFirst.go l seen) : x ∈ l := by
  induction l generalizing seen with
  | nil => simp [dedupFirst.go] at h
  | cons a t ih =>
    simp only [dedupFirst.go] at h
    by_cases ha : a ∈ seen
    · simp [ha] at h
      exact List.mem_cons_of_mem _ (ih h)
    · simp [ha] at h
      rcases h with h | h
      · simp [h]
      · exact List.mem_cons_of_mem _ (ih h)

theorem mem_dedupFirst_of_mem {l : List String} {x : String}
    (h : x ∈ l) : ∀ seen, x ∉ seen → x ∈ dedupFirst.go l seen := by
  induction l with
  | nil => simp at h
  | cons a t ih =>
    intro seen hseen
    simp only [dedupFirst.go]
    rcases List.mem_cons.mp h with rfl | hx
    · simp [hseen]
    · by_cases ha : a ∈ seen
      · simp [ha]
        exact ih hx seen hseen
      · simp [ha]
        by_cases hxa : x = a
        · simp [hxa]
        · right
          exact ih hx (a :: seen) (by simp [hxa, hseen])

theorem mem_dedupFirst {l : List String} {x : String} :
    x ∈ dedupFirst l ↔ x ∈ l :=
  ⟨mem_dedupFirst_go, fun h => mem_dedupFirst_of_mem h [] (by simp)⟩

theorem mem_of_mem_chunksOfGo {α : Type} {batch n : Nat} {l : List α}
    {c : List α} {x : α} (hc : c ∈ chunksOfGo batch n l) (hx : x ∈ c) : x ∈ l := by
  induction n generalizing l with
  | zero =>
    cases l <;> simp [chunksOfGo] at hc
  | succ n ih =>
    cases l with
    | nil => simp [chunksOfGo] at hc
    | cons a t =>
      simp only [chunksOfGo] at hc
      rcases List.mem_cons.mp hc with rfl | hc'
      · exact List.mem_of_mem_take hx
      · exact List.mem_of_mem_drop (ih hc')

theorem mem_of_mem_chunksOf {α : Type} {batch : Nat} {l : List α}
    {c : List α} {x : α} (hc : c ∈ chunksOf batch l) (hx : x ∈ c) : x ∈ l :=
  mem_of_mem_chunksOfGo hc hx

/-! ## Characterising the aggregated `incomingMap` -/

theorem mergeInto_compKey (mode : QMode) (cur r : ProdutoRow) :
    (mergeInto mode cur r).compKey = cur.compKey := rfl

theorem alGet_mergeStep (mode : QMode) (m : List (String × ProdutoRow))
    (r : ProdutoRow) (comp : String) :
    alGet (mergeStep mode m r) comp =
      if (normChunkRow r).compKey = comp then
        mergeAcc mode (alGet m comp) (normChunkRow r)
      else alGet m comp := by
  unfold mergeStep
  cases halg : alGet m (normChunkRow r).compKey with
  | none =>
    simp only [halg]
    rw [alGet_append]
    by_cases hc : (normChunkRow r).compKey = comp
    · rw [← hc, halg]
      simp [alGet, mergeAcc]
    · cases h' : alGet m comp with
      | none => simp [alGet, fun h => hc h, hc]
      | some v => simp [hc]
  | some cur =>
    simp only [halg]
    by_cases hc : (normChunkRow r).compKey = comp
    · rw [← hc, alGet_alSet_self, halg]
      simp [mergeAcc]
    · rw [alGet_alSet_ne _ _ _ _ (fun h => hc h.symm)]
      simp [hc]

theorem alGet_foldl_mergeStep (mode : QMode) (chunk : List ProdutoRow)
    (m : List (String × ProdutoRow)) (comp : String) :
    alGet (chunk.foldl (mergeStep mode) m) comp =
      ((chunk.map normChunkRow).filter fun r => r.compKey = comp).foldl
        (mergeAcc mode) (alGet m comp) := by
  induction chunk generalizing m with
  | nil => simp
  | cons r t ih =>
    simp only [List.foldl_cons, List.map_cons]
    rw [ih, alGet_mergeStep]
    by_cases hc : (normChunkRow r).compKey = comp
    · simp [hc]
    · simp [hc]

/-- The entry of the aggregated map at a composite key is the merge-fold
of the normalised chunk rows carrying that key. -/
theorem alGet_buildIncoming (mode : QMode) (chunk : List ProdutoRow)
    (comp : String) :
    alGet (buildIncoming mode chunk) comp =
      ((chunk.map normChunkRow).filter fun r => r.compKey = comp).foldl
        (mergeAcc mode) none := by
  unfold buildIncoming
  rw [alGet_foldl_mergeStep]
  rfl

theorem alKeys_mergeStep_nodup (mode : QMode)
    {m : List (String × ProdutoRow)} (hm : (alKeys m).Nodup)
    (r : ProdutoRow) : (alKeys (mergeStep mode m r)).Nodup := by
  unfold mergeStep
  cases halg : alGet m (normChunkRow r).compKey with
  | none =>
    simp only [halg]
    have hk : (normChunkRow r).compKey ∉ alKeys m :=
      (alGet_eq_none_iff _ _).mp halg
    have hkeys : alKeys (m ++ [((normChunkRow r).compKey, normChunkRow r)])
        = alKeys m ++ [(normChunkRow r).compKey] := by
      simp [alKeys]
    rw [hkeys, List.nodup_append]
    refine ⟨hm, List.nodup_singleton _, ?_⟩
    intro a ha hb
    rw [List.mem_singleton] at hb
    subst hb
    exact hk ha
  | some cur =>
    simpa only [halg, alKeys_alSet] using hm

theorem alKeys_buildIncoming_nodup (mode : QMode) (chunk : List ProdutoRow) :
    (alKeys (buildIncoming mode chunk)).Nodup := by
  unfold buildIncoming
  suffices h : ∀ m : List (String × ProdutoRow), (alKeys m).Nodup →
      (alKeys (chunk.foldl (mergeStep mode) m)).Nodup by
    exact h [] (by simp [alKeys])
  induction chunk with
  | nil => intro m hm; simpa using hm
  | cons r t ih =>
    intro m hm
    exact ih _ (alKeys_mergeStep_nodup mode hm r)

set_option maxHeartbeats 1000000 in
/-- Every entry of the aggregated map carries a row whose composite key
is the entry's key. -/
theorem buildIncoming_entry_key (mode : QMode) (chunk : List ProdutoRow) :
    ∀ kv ∈ buildIncoming mode chunk, kv.2.compKey = kv.1 := by
  unfold buildIncoming
  suffices h : ∀ m : List (String × ProdutoRow),
      (∀ kv ∈ m, kv.2.compKey = kv.1) →
      ∀ kv ∈ chunk.foldl (mergeStep mode) m, kv.2.compKey = kv.1 by
    exact h [] (by simp)
  induction chunk with
  | nil => intro m hm; simpa using hm
  | cons r t ih =>
    intro m hm
    apply ih
    intro kv hkv
    unfold mergeStep at hkv
    cases halg : alGet m (normChunkRow r).compKey with
    | none =>
      simp only [halg] at hkv
      rcases List.mem_append.mp hkv with h1 | h1
      · exact hm kv h1
      · have h2 : kv = ((normChunkRow r).compKey, normChunkRow r) := by
          simpa using h1
        rw [h2]
    | some cur =>
      simp only [halg] at hkv
      rcases mem_alSet _ _ hkv with h1 | h1
      · exact hm kv h1
      · have hmem : ((normChunkRow r).compKey, cur) ∈ m := alGet_mem halg
        have hcur := hm ((normChunkRow r).compKey, cur) hmem
        simp only [] at hcur
        rw [h1]
        show (mergeInto mode cur (normChunkRow r)).compKey
            = (normChunkRow r).compKey
        rw [mergeInto_compKey]
        exact hcur

/-! ### Facts about the merge-fold -/

theorem mergeAcc_foldl_fields (mode : QMode) (rows : List ProdutoRow)
    (cur : ProdutoRow) :
    ∃ m, rows.foldl (mergeAcc mode) (some cur) = some m ∧
      m.cliente_codigo = cur.cliente_codigo ∧
      m.produto_codigo = cur.produto_codigo ∧
      m.id_pedido = cur.id_pedido := by
  induction rows generalizing cur with
  | nil => exact ⟨cur, rfl, rfl, rfl, rfl⟩
  | cons r t ih =>
    obtain ⟨m, hm, h1, h2, h3⟩ := ih (mergeInto mode cur r)
    exact ⟨m, by simpa [mergeAcc] using hm, by simpa [mergeInto] using h1,
      by simpa [mergeInto] using h2, by simpa [mergeInto] using h3⟩

/-- Delta mode: folding rows with known quantities onto an accumulator
with a known quantity sums them all. -/
theorem mergeAcc_foldl_delta_sum (rows : List ProdutoRow) (cur : ProdutoRow)
    (qc : Int) (hcur : cur.quantidade = some qc)
    (hrows : ∀ r ∈ rows, r.quantidade.isSome) :
    ∃ m, rows.foldl (mergeAcc .delta) (some cur) = some m ∧
      m.quantidade = some (qc + (rows.map fun r => r.quantidade.getD 0).sum) := by
  induction rows generalizing cur qc with
  | nil => exact ⟨cur, rfl, by simpa using hcur⟩
  | cons r t ih =>
    have hr : (mergeInto .delta cur r).quantidade
        = some (qc + r.quantidade.getD 0) := by
      simp [mergeInto, hcur]
    obtain ⟨m, hm, hq⟩ := ih (mergeInto .delta cur r) (qc + r.quantidade.getD 0)
      hr (fun r' h => hrows r' (List.mem_cons_of_mem _ h))
    refine ⟨m, by simpa [mergeAcc] using hm, ?_⟩
    rw [hq]
    simp [add_assoc]

/-- Absolute mode: the fold keeps the last row's quantity. -/
theorem mergeAcc_foldl_absolute_last (rows : List ProdutoRow)
    (cur : ProdutoRow) (hne : rows ≠ []) :
    ∃ m last, rows.foldl (mergeAcc .absolute) (some cur) = some m ∧
      rows.getLast? = some last ∧ m.quantidade = last.quantidade := by
  induction rows generalizing cur with
  | nil => exact absurd rfl hne
  | cons r t ih =>
    cases t with
    | nil =>
      exact ⟨mergeInto .absolute cur r, r, rfl, rfl, by simp [mergeInto]⟩
    | cons r2 t2 =>
      obtain ⟨m, last, hm, hlast, hq⟩ := ih (mergeInto .absolute cur r) (by simp)
      exact ⟨m, last, by simpa [mergeAcc] using hm,
        by simpa [List.getLast?_cons_cons] using hlast, hq⟩

/-! ## The existing-rows read and `existingMap` -/

theorem mem_selectExisting {store : List ExistingRow} {keys : List String}
    {e : ExistingRow} (h : e ∈ selectExisting store keys) :
    e ∈ store ∧ ∃ p, e.produto_codigo = some p ∧ p ∈ keys := by
  unfold selectExisting at h
  by_cases hk : keys = []
  · simp [hk] at h
  · simp only [hk, if_false] at h
    have h1 := List.mem_filter.mp h
    refine ⟨h1.1, ?_⟩
    cases hp : e.produto_codigo with
    | none => rw [hp] at h1; simp at h1
    | some p =>
      rw [hp] at h1
      exact ⟨p, rfl, by simpa using h1.2⟩

theorem buildExisting_fold_inv (P : ExistingRow → Prop) :
    ∀ (rows : List ExistingRow) (m : List (String × ExistingRow)),
      (∀ e ∈ rows, P e) →
      (∀ kv ∈ m, P kv.2 ∧ kv.2.compKey = kv.1) →
      ∀ kv ∈ rows.foldl existingStep m, P kv.2 ∧ kv.2.compKey = kv.1 := by
  intro rows
  induction rows with
  | nil => intro m _ hm; simpa using hm
  | cons e t ih =>
    intro m hrows hm
    simp only [List.foldl_cons]
    apply ih _ (fun x hx => hrows x (List.mem_cons_of_mem _ hx))
    intro kv hkv
    unfold existingStep at hkv
    cases halg : alGet m e.compKey with
    | none =>
      simp only [halg] at hkv
      rcases List.mem_append.mp hkv with h1 | h1
      · exact hm kv h1
      · have h2 : kv = (e.compKey, e) := by simpa using h1
        rw [h2]
        exact ⟨hrows e (by simp), rfl⟩
    | some cur =>
      simp only [halg] at hkv
      by_cases hid : cur.id < e.id
      · simp only [hid, if_true] at hkv
        rcases mem_alSet _ _ hkv with h1 | h1
        · exact hm kv h1
        · rw [h1]
          exact ⟨hrows e (by simp), rfl⟩
      · simp only [hid, if_false] at hkv
        exact hm kv hkv

/-- Every `existingMap` entry holds one of the fetched rows, filed under
its own composite key. -/
theorem buildExisting_entries {rows : List ExistingRow} :
    ∀ kv ∈ buildExisting rows, kv.2 ∈ rows ∧ kv.2.compKey = kv.1 :=
  buildExisting_fold_inv (· ∈ rows) rows [] (fun _ h => h) (by simp)

theorem existingStep_preserves {m : List (String × ExistingRow)}
    {k : String} (h : (alGet m k).isSome) (e : ExistingRow) :
    (alGet (existingStep m e) k).isSome := by
  unfold existingStep
  cases halg : alGet m e.compKey with
  | none =>
    simp only [halg]
    rw [alGet_append]
    cases h' : alGet m k with
    | none => rw [h'] at h; simp at h
    | some v => simp
  | some cur =>
    simp only [halg]
    by_cases hid : cur.id < e.id
    · simp only [hid, if_true]
      by_cases hk : k = e.compKey
      · subst hk
        rw [alGet_alSet_self, halg]
        simp
      · rw [alGet_alSet_ne _ _ _ _ hk]
        exact h
    · simpa only [hid, if_false] using h

theorem alGet_foldl_existingStep_preserves (rows : List ExistingRow) :
    ∀ (m : List (String × ExistingRow)) (k : String), (alGet m k).isSome →
      (alGet (rows.foldl existingStep m) k).isSome := by
  induction rows with
  | nil => intro m k h; simpa using h
  | cons e t ih =>
    intro m k h
    exact ih _ _ (existingStep_preserves h e)

theorem alGet_existingStep_self (m : List (String × ExistingRow))
    (e : ExistingRow) : (alGet (existingStep m e) e.compKey).isSome := by
  unfold existingStep
  cases halg : alGet m e.compKey with
  | none =>
    simp only [halg]
    rw [alGet_append, halg]
    simp [alGet]
  | some cur =>
    simp only [halg]
    by_cases hid : cur.id < e.id
    · simp only [hid, if_true]
      rw [alGet_alSet_self, halg]
      simp
    · simp only [hid, if_false, halg]
      simp

theorem foldl_existingStep_key_present (rows : List ExistingRow) :
    ∀ (m : List (String × ExistingRow)) (e : ExistingRow), e ∈ rows →
      (alGet (rows.foldl existingStep m) e.compKey).isSome := by
  induction rows with
  | nil => intro m e h; simp at h
  | cons x t ih =>
    intro m e h
    simp only [List.foldl_cons]
    rcases List.mem_cons.mp h with rfl | h1
    · exact alGet_foldl_existingStep_preserves t _ _ (alGet_existingStep_self m e)
    · exact ih _ _ h1

/-- Every fetched row's composite key is present in the `existingMap`. -/
theorem buildExisting_key_present {rows : List ExistingRow} {e : ExistingRow}
    (h : e ∈ rows) : (alGet (buildExisting rows) e.compKey).isSome :=
  foldl_existingStep_key_present rows [] e h

/-- A nonempty trimmed product code of an aggregated row is in
`produtoKeys`. -/
theorem produtoKeys_mem {im : List (String × ProdutoRow)}
    {kv : String × ProdutoRow} (h : kv ∈ im)
    (hne : jsTrim (kv.2.produto_codigo.getD "") ≠ "") :
    jsTrim (kv.2.produto_codigo.getD "") ∈ produtoKeys im := by
  unfold produtoKeys
  rw [mem_dedupFirst]
  apply List.mem_filter.mpr
  refine ⟨?_, by simpa using hne⟩
  exact List.mem_map.mpr ⟨kv, h, rfl⟩

/-! ## Characterising the per-key decision -/

theorem decideKey_emptyCode (mode : QMode) (em : List (String × ExistingRow))
    (comp : String) (inc : ProdutoRow)
    (h : jsTrim (inc.produto_codigo.getD "") = "") :
    decideKey mode em comp inc = .ins inc := by
  unfold decideKey
  simp [h]

theorem decideKey_noExisting (mode : QMode) (em : List (String × ExistingRow))
    (comp : String) (inc : ProdutoRow)
    (h : jsTrim (inc.produto_codigo.getD "") ≠ "")
    (he : alGet em comp = none) :
    decideKey mode em comp inc = .ins inc := by
  unfold decideKey
  simp [h, he]

theorem decideKey_nullQty (mode : QMode) (em : List (String × ExistingRow))
    (comp : String) (inc : ProdutoRow) (e : ExistingRow)
    (h : jsTrim (inc.produto_codigo.getD "") ≠ "")
    (he : alGet em comp = some e) (hq : inc.quantidade = none) :
    decideKey mode em comp inc = .skip := by
  unfold decideKey
  simp [h, he, hq]

theorem decideKey_someQty (mode : QMode) (em : List (String × ExistingRow))
    (comp : String) (inc : ProdutoRow) (e : ExistingRow) (qIn : Int)
    (h : jsTrim (inc.produto_codigo.getD "") ≠ "")
    (he : alGet em comp = some e) (hq : inc.quantidade = some qIn) :
    decideKey mode em comp inc =
      if qNew mode (e.quantidade.getD 0) qIn ≠ e.quantidade.getD 0 then
        .upd e.id (qNew mode (e.quantidade.getD 0) qIn)
      else .skip := by
  unfold decideKey qNew
  cases mode <;> simp [h, he, hq]

theorem decideKey_upd_inv {mode : QMode} {em : List (String × ExistingRow)}
    {comp : String} {inc : ProdutoRow} {i : Nat} {q : Int}
    (h : decideKey mode em comp inc = .upd i q) :
    ∃ e qIn, alGet em comp = some e ∧ i = e.id ∧ inc.quantidade = some qIn ∧
      q = qNew mode (e.quantidade.getD 0) qIn ∧ q ≠ e.quantidade.getD 0 := by
  unfold decideKey at h
  by_cases hpc : jsTrim (inc.produto_codigo.getD "") = ""
  · simp [hpc] at h
  · simp only [hpc, if_false] at h
    cases he : alGet em comp with
    | none => simp [he] at h
    | some e =>
      simp only [he] at h
      cases hq : inc.quantidade with
      | none => simp [hq] at h
      | some qIn =>
        simp only [hq] at h
        split at h
        next hcond =>
          cases h
          refine ⟨e, qIn, rfl, rfl, rfl, ?_, ?_⟩
          · cases mode <;> rfl
          · cases mode <;> simpa [qNew] using hcond
        next => cases h

theorem decideKey_ins_inv {mode : QMode} {em : List (String × ExistingRow)}
    {comp : String} {inc : ProdutoRow} {r : ProdutoRow}
    (h : decideKey mode em comp inc = .ins r) : r = inc := by
  unfold decideKey at h
  by_cases hpc : jsTrim (inc.produto_codigo.getD "") = ""
  · simp [hpc] at h
    exact h.symm
  · simp only [hpc, if_false] at h
    cases he : alGet em comp with
    | none =>
      simp only [he] at h
      cases h
      rfl
    | some e =>
      simp only [he] at h
      cases hq : inc.quantidade with
      | none => simp [hq] at h
      | some qIn =>
        simp only [hq] at h
        split at h <;> cases h

theorem updOf_eq_some {mode : QMode} {em : List (String × ExistingRow)}
    {kv : String × ProdutoRow} {u : Nat × Int} :
    updOf mode em kv = some u ↔ decideKey mode em kv.1 kv.2 = .upd u.1 u.2 := by
  obtain ⟨u1, u2⟩ := u
  unfold updOf
  cases h : decideKey mode em kv.1 kv.2 <;> simp

theorem insOf_eq_some {mode : QMode} {em : List (String × ExistingRow)}
    {kv : String × ProdutoRow} {r : ProdutoRow} :
    insOf mode em kv = some r ↔ decideKey mode em kv.1 kv.2 = .ins r := by
  unfold insOf
  cases h : decideKey mode em kv.1 kv.2 <;> simp

theorem processChunk_updates (mode : QMode) (store : List ExistingRow)
    (chunk : List ProdutoRow) :
    (processChunk mode store chunk).updates =
      (buildIncoming mode chunk).filterMap
        (updOf mode (chunkEM mode store chunk)) := rfl

theorem processChunk_inserts (mode : QMode) (store : List ExistingRow)
    (chunk : List ProdutoRow) :
    (processChunk mode store chunk).inserts =
      (buildIncoming mode chunk).filterMap
        (insOf mode (chunkEM mode store chunk)) := rfl

/-- Distinct ids of distinct persisted rows (store invariant). -/
theorem store_id_inj {store : List ExistingRow}
    (hids : (store.map (fun e => e.id)).Nodup) {e1 e2 : ExistingRow}
    (h1 : e1 ∈ store) (h2 : e2 ∈ store) (h : e1.id = e2.id) : e1 = e2 :=
  List.inj_on_of_nodup_map hids h1 h2 h

/-- The updates a chunk issues for the composite key of a fetched row:
exactly one, carrying the reconciled quantity, unless the reconciled
quantity equals the read one (then none). -/
theorem updates_filter_eq (mode : QMode) (store : List ExistingRow)
    (chunk : List ProdutoRow) (comp : String) (inc : ProdutoRow)
    (e : ExistingRow) (qIn : Int)
    (hids : (store.map (fun x => x.id)).Nodup)
    (him : alGet (buildIncoming mode chunk) comp = some inc)
    (hpc : jsTrim (inc.produto_codigo.getD "") ≠ "")
    (hem : alGet (chunkEM mode store chunk) comp = some e)
    (hq : inc.quantidade = some qIn) :
    (processChunk mode store chunk).updates.filter (fun u => u.1 = e.id)
      = if qNew mode (e.quantidade.getD 0) qIn ≠ e.quantidade.getD 0
        then [(e.id, qNew mode (e.quantidade.getD 0) qIn)] else [] := by
  obtain ⟨l1, l2, hsplit, hk1, hk2⟩ :=
    alGet_split (alKeys_buildIncoming_nodup mode chunk) him
  have heFacts := @buildExisting_entries (selectExisting store
    (produtoKeys (buildIncoming mode chunk))) _ (alGet_mem hem)
  have heStore : e ∈ store := (mem_selectExisting heFacts.1).1
  have heKey : e.compKey = comp := heFacts.2
  have hother : ∀ kv ∈ l1 ++ l2, ∀ u : Nat × Int,
      updOf mode (chunkEM mode store chunk) kv = some u → u.1 ≠ e.id := by
    intro kv hkv u hu
    obtain ⟨e', qIn', he', hi, _, _, _⟩ :=
      decideKey_upd_inv (updOf_eq_some.mp hu)
    have he'Facts := buildExisting_entries _ (alGet_mem he')
    have he'Store : e' ∈ store := (mem_selectExisting he'Facts.1).1
    have he'Key : e'.compKey = kv.1 := he'Facts.2
    have hkne : kv.1 ≠ comp := by
      intro hcontra
      rcases List.mem_append.mp hkv with hmem | hmem
      · exact hk1 (hcontra ▸ List.mem_map.mpr ⟨kv, hmem, rfl⟩)
      · exact hk2 (hcontra ▸ List.mem_map.mpr ⟨kv, hmem, rfl⟩)
    intro hid
    apply hkne
    rw [← he'Key, ← heKey]
    congr 1
    exact store_id_inj hids he'Store heStore (by rw [← hi, hid])
  have hcenter : decideKey mode (chunkEM mode store chunk) comp inc
      = if qNew mode (e.quantidade.getD 0) qIn ≠ e.quantidade.getD 0 then
          .upd e.id (qNew mode (e.quantidade.getD 0) qIn)
        else .skip :=
    decideKey_someQty mode _ comp inc e qIn hpc hem hq
  rw [processChunk_updates, hsplit, List.filterMap_append, List.filterMap_cons,
    List.filter_append]
  have hl1 : (l1.filterMap (updOf mode (chunkEM mode store chunk))).filter
      (fun u => u.1 = e.id) = [] := by
    rw [List.filter_eq_nil_iff]
    intro u hu
    obtain ⟨kv, hkv, hukv⟩ := List.mem_filterMap.mp hu
    simpa using hother kv (List.mem_append.mpr (Or.inl hkv)) u hukv
  have hl2 : (l2.filterMap (updOf mode (chunkEM mode store chunk))).filter
      (fun u => u.1 = e.id) = [] := by
    rw [List.filter_eq_nil_iff]
    intro u hu
    obtain ⟨kv, hkv, hukv⟩ := List.mem_filterMap.mp hu
    simpa using hother kv (List.mem_append.mpr (Or.inr hkv)) u hukv
  rw [hl1]
  by_cases hcond : qNew mode (e.quantidade.getD 0) qIn ≠ e.quantidade.getD 0
  · rw [if_pos hcond] at hcenter ⊢
    have : updOf mode (chunkEM mode store chunk) (comp, inc)
        = some (e.id, qNew mode (e.quantidade.getD 0) qIn) := by
      rw [updOf_eq_some]
      exact hcenter
    rw [this]
    simp [hl2]
  · rw [if_neg hcond] at hcenter ⊢
    have : updOf mode (chunkEM mode store chunk) (comp, inc) = none := by
      unfold updOf
      rw [hcenter]
    rw [this]
    simp [hl2]

/-! ## Effect of a chunk's writes on the store -/

theorem mem_maxId {store : List ExistingRow} {e : ExistingRow}
    (h : e ∈ store) : e.id ≤ maxId store := by
  induction store with
  | nil => simp at h
  | cons x t ih =>
    have hmax : maxId (x :: t) = max x.id (maxId t) := rfl
    rcases List.mem_cons.mp h with rfl | h1
    · rw [hmax]; exact le_max_left _ _
    · rw [hmax]; exact le_trans (ih h1) (le_max_right _ _)

theorem storeQty_applyInserts {store : List ExistingRow}
    (rows : List ProdutoRow) {i : Nat} (h : i ≤ maxId store) :
    storeQty (applyInserts store rows) i = storeQty store i := by
  unfold storeQty applyInserts
  rw [List.find?_append]
  cases hf : store.find? (fun e => e.id = i) with
  | some e => simp
  | none =>
    simp only [Option.none_or]
    have : (rows.enum.map fun p =>
        ({ id := maxId store + 1 + p.1, cliente_codigo := p.2.cliente_codigo,
           produto_codigo := p.2.produto_codigo, id_pedido := p.2.id_pedido,
           quantidade := p.2.quantidade } : ExistingRow)).find?
        (fun e => e.id = i) = none := by
      rw [List.find?_eq_none]
      intro x hx
      obtain ⟨p, _, hp⟩ := List.mem_map.mp hx
      rw [← hp]
      simp
      omega
    rw [this]

theorem storeQty_applyUpdate (st : List ExistingRow) (u : Nat × Int)
    (i : Nat) :
    storeQty (applyUpdate st u) i =
      if u.1 = i then (storeQty st i).map (fun _ => some u.2)
      else storeQty st i := by
  have hfx_id : ∀ e : ExistingRow,
      (if e.id = u.1 then ({ e with quantidade := some u.2 } : ExistingRow)
       else e).id = e.id := by
    intro e; by_cases h : e.id = u.1 <;> simp [h]
  induction st with
  | nil =>
    by_cases h : u.1 = i <;> simp [storeQty, applyUpdate, h]
  | cons x t ih =>
    by_cases hxi : x.id = i
    · have hL : storeQty (applyUpdate (x :: t) u) i
          = some (if x.id = u.1 then ({ x with quantidade := some u.2 } : ExistingRow)
                  else x).quantidade := by
        unfold storeQty applyUpdate
        rw [List.map_cons, List.find?_cons_of_pos _ (by simp [hfx_id x]; exact hxi)]
        simp
      have hR : storeQty (x :: t) i = some x.quantidade := by
        unfold storeQty
        rw [List.find?_cons_of_pos _ (by simp [hxi])]
        simp
      rw [hL, hR]
      by_cases hui : u.1 = i
      · have hxu : x.id = u.1 := by omega
        simp [hxu, hui]
      · have hxu : ¬ x.id = u.1 := by omega
        simp [hxu, hui]
    · have hL : storeQty (applyUpdate (x :: t) u) i
          = storeQty (applyUpdate t u) i := by
        unfold storeQty applyUpdate
        rw [List.map_cons, List.find?_cons_of_neg _ (by simp [hfx_id x]; exact hxi)]
      have hR : storeQty (x :: t) i = storeQty t i := by
        unfold storeQty
        rw [List.find?_cons_of_neg _ (by simp [hxi])]
      rw [hL, hR, ih]

theorem storeQty_foldl_updates_none {us : List (Nat × Int)}
    {i : Nat} (h : ∀ u ∈ us, u.1 ≠ i) (st : List ExistingRow) :
    storeQty (us.foldl applyUpdate st) i = storeQty st i := by
  induction us generalizing st with
  | nil => rfl
  | cons u t ih =>
    simp only [List.foldl_cons]
    rw [ih (fun x hx => h x (List.mem_cons_of_mem _ hx)),
      storeQty_applyUpdate, if_neg (h u (by simp))]

theorem storeQty_foldl_updates_one {us : List (Nat × Int)} {i : Nat} {q : Int}
    (h : us.filter (fun u => u.1 = i) = [(i, q)]) (st : List ExistingRow) :
    storeQty (us.foldl applyUpdate st) i = (storeQty st i).map (fun _ => some q) := by
  induction us generalizing st with
  | nil => simp at h
  | cons u t ih =>
    by_cases hu : u.1 = i
    · rw [List.filter_cons_of_pos (by simpa using hu)] at h
      have hu2 : u = (i, q) := (List.cons_eq_cons.mp h).1
      have ht : t.filter (fun u => u.1 = i) = [] := (List.cons_eq_cons.mp h).2
      simp only [List.foldl_cons]
      rw [storeQty_foldl_updates_none (fun x hx => by
        have := (List.filter_eq_nil_iff.mp ht) x hx
        simpa using this)]
      rw [storeQty_applyUpdate, if_pos hu]
      rw [hu2]
    · rw [List.filter_cons_of_neg (by simpa using hu)] at h
      simp only [List.foldl_cons]
      rw [ih h, storeQty_applyUpdate, if_neg hu]

theorem storeQty_mem {store : List ExistingRow}
    (hids : (store.map (fun x => x.id)).Nodup) {e : ExistingRow}
    (he : e ∈ store) : storeQty store e.id = some e.quantidade := by
  unfold storeQty
  have hsome : (store.find? (fun x => x.id = e.id)).isSome := by
    rw [List.find?_isSome]
    exact ⟨e, he, by simp⟩
  obtain ⟨x, hx⟩ := Option.isSome_iff_exists.mp hsome
  have hxid : x.id = e.id := by simpa using List.find?_some hx
  have hxmem : x ∈ store := List.mem_of_find?_eq_some hx
  rw [hx]
  rw [store_id_inj hids hxmem he hxid]
  rfl

/-- Reconciled final quantity of the persisted row a chunk updates:
after the chunk's inserts and updates, the row read for a key with
incoming quantity `qIn` holds exactly `qNew mode qOld qIn`. -/
theorem chunk_final_qty (mode : QMode) (store : List ExistingRow)
    (chunk : List ProdutoRow) (comp : String) (inc : ProdutoRow)
    (e : ExistingRow) (qOld qIn : Int)
    (hids : (store.map (fun x => x.id)).Nodup)
    (him : alGet (buildIncoming mode chunk) comp = some inc)
    (hpc : jsTrim (inc.produto_codigo.getD "") ≠ "")
    (hem : alGet (chunkEM mode store chunk) comp = some e)
    (hq : inc.quantidade = some qIn) (heq : e.quantidade = some qOld) :
    storeQty (applyChunk store (processChunk mode store chunk)) e.id
      = some (some (qNew mode qOld qIn)) := by
  have heFacts := @buildExisting_entries (selectExisting store
    (produtoKeys (buildIncoming mode chunk))) _ (alGet_mem hem)
  have heStore : e ∈ store := (mem_selectExisting heFacts.1).1
  have hg : e.quantidade.getD 0 = qOld := by rw [heq]; rfl
  have hfil := updates_filter_eq mode store chunk comp inc e qIn hids him hpc hem hq
  rw [hg] at hfil
  have hbase : storeQty (applyInserts store (processChunk mode store chunk).inserts)
      e.id = storeQty store e.id :=
    storeQty_applyInserts _ (mem_maxId heStore)
  have hstq : storeQty store e.id = some e.quantidade := storeQty_mem hids heStore
  unfold applyChunk
  by_cases hcond : qNew mode qOld qIn ≠ qOld
  · rw [if_pos hcond] at hfil
    rw [storeQty_foldl_updates_one hfil, hbase, hstq]
    rfl
  · rw [if_neg hcond] at hfil
    push_neg at hcond
    rw [storeQty_foldl_updates_none (fun x hx => by
      have := (List.filter_eq_nil_iff.mp hfil) x hx
      simpa using this), hbase, hstq, heq, hcond]

/-! ## Corollaries shaping the per-claim statements -/

theorem alGet_of_mem_nodup {α : Type} {m : List (String × α)}
    (hnd : (alKeys m).Nodup) {k : String} {v : α} (h : (k, v) ∈ m) :
    alGet m k = some v := by
  induction m with
  | nil => simp at h
  | cons kv t ih =>
    obtain ⟨k0, v0⟩ := kv
    simp only [alKeys, List.map_cons, List.nodup_cons] at hnd
    rcases List.mem_cons.mp h with h1 | h1
    · cases h1
      simp [alGet]
    · have hk : k0 ≠ k := by
        intro hc
        subst hc
        exact hnd.1 (List.mem_map.mpr ⟨(k0, v), h1, rfl⟩)
    

      simp only [alGet, hk, if_false]
      exact ih hnd.2 h1

/-- Delta mode merging: the aggregated entry of a key sums the incoming
quantities of all (normalised) chunk rows carrying that key, when each of
them has a quantity. -/
theorem delta_merge_sum (chunk : List ProdutoRow) (comp : String)
    (hne : (chunk.map normChunkRow).filter (fun r => r.compKey = comp) ≠ [])
    (hq : ∀ r ∈ (chunk.map normChunkRow).filter (fun r => r.compKey = comp),
      r.quantidade.isSome) :
    ∃ inc, alGet (buildIncoming .delta chunk) comp = some inc ∧
      inc.quantidade = some ((((chunk.map normChunkRow).filter
        (fun r => r.compKey = comp)).map fun r => r.quantidade.getD 0).sum) := by
  rw [alGet_buildIncoming]
  cases hrows : (chunk.map normChunkRow).filter (fun r => r.compKey = comp) with
  | nil => exact absurd hrows hne
  | cons r0 rest =>
    rw [hrows] at hq
    obtain ⟨q0, hq0⟩ := Option.isSome_iff_exists.mp (hq r0 (by simp))
    obtain ⟨m, hm, hmq⟩ := mergeAcc_foldl_delta_sum rest r0 q0 hq0
      (fun r h => hq r (List.mem_cons_of_mem _ h))
    refine ⟨m, ?_, ?_⟩
    · simpa [mergeAcc] using hm
    · rw [hmq]
      simp [hq0]

/-- Absolute mode merging: the aggregated entry of a key keeps the last
incoming quantity for that key, in document order. -/
theorem absolute_merge_last (chunk : List ProdutoRow) (comp : String)
    (hne : (chunk.map normChunkRow).filter (fun r => r.compKey = comp) ≠ []) :
    ∃ inc last, alGet (buildIncoming .absolute chunk) comp = some inc ∧
      ((chunk.map normChunkRow).filter (fun r => r.compKey = comp)).getLast?
        = some last ∧
      inc.quantidade = last.quantidade := by
  rw [alGet_buildIncoming]
  cases hrows : (chunk.map normChunkRow).filter (fun r => r.compKey = comp) with
  | nil => exact absurd hrows hne
  | cons r0 rest =>
    by_cases hrest : rest = []
    · subst hrest
      exact ⟨r0, r0, rfl, rfl, rfl⟩
    · obtain ⟨r1, t1, rfl⟩ := List.exists_cons_of_ne_nil hrest
      obtain ⟨m, last, hm, hlast, hq⟩ :=
        mergeAcc_foldl_absolute_last (r1 :: t1) r0 (by simp)
      exact ⟨m, last, by simpa [mergeAcc] using hm,
        by simpa [List.getLast?_cons_cons] using hlast, hq⟩

/-- The aggregated entry keeps the product code shared by the rows of its
key. -/
theorem merge_produto_codigo (mode : QMode) (chunk : List ProdutoRow)
    (comp : String) (p : Option String)
    (hall : ∀ r ∈ (chunk.map normChunkRow).filter (fun r => r.compKey = comp),
      r.produto_codigo = p)
    {inc : ProdutoRow} (him : alGet (buildIncoming mode chunk) comp = some inc) :
    inc.produto_codigo = p := by
  rw [alGet_buildIncoming] at him
  cases hrows : (chunk.map normChunkRow).filter (fun r => r.compKey = comp) with
  | nil => rw [hrows] at him; simp at him
  | cons r0 rest =>
    rw [hrows] at him hall
    obtain ⟨m, hm, _, hprod, _⟩ := mergeAcc_foldl_fields mode rest r0
    have h2 : rest.foldl (mergeAcc mode) (some r0) = some inc := by
      simpa [mergeAcc] using him
    rw [hm] at h2
    cases h2
    rw [hprod]
    exact hall r0 (by simp)

/-- Provenance of every issued update: it targets the row read for some
aggregated key and carries the reconciled quantity computed from that
row's read value. -/
theorem updates_provenance (mode : QMode) (store : List ExistingRow)
    (chunk : List ProdutoRow) :
    ∀ u ∈ (processChunk mode store chunk).updates, ∃ k inc e qIn,
      alGet (buildIncoming mode chunk) k = some inc ∧
      alGet (chunkEM mode store chunk) k = some e ∧
      inc.quantidade = some qIn ∧
      u = (e.id, qNew mode (e.quantidade.getD 0) qIn) ∧
      qNew mode (e.quantidade.getD 0) qIn ≠ e.quantidade.getD 0 := by
  intro u hu
  rw [processChunk_updates] at hu
  obtain ⟨kv, hkv, hukv⟩ := List.mem_filterMap.mp hu
  obtain ⟨e, qIn, he, hi, hq, hQ, hne⟩ := decideKey_upd_inv (updOf_eq_some.mp hukv)
  refine ⟨kv.1, kv.2, e, qIn, ?_, he, hq, ?_, ?_⟩
  · exact alGet_of_mem_nodup (alKeys_buildIncoming_nodup mode chunk)
      (by simpa using hkv)
  · have : u = (u.1, u.2) := rfl
    rw [this, hi, hQ]
  · rw [← hQ]
    exact hne

/-- When the aggregated key's decision is not an insert, no insert with
that composite key is issued by the chunk. -/
theorem no_insert_of_not_ins (mode : QMode) (store : List ExistingRow)
    (chunk : List ProdutoRow) (comp : String) (inc : ProdutoRow)
    (him : alGet (buildIncoming mode chunk) comp = some inc)
    (hno : ∀ r, decideKey mode (chunkEM mode store chunk) comp inc ≠ .ins r) :
    ∀ r ∈ (processChunk mode store chunk).inserts, r.compKey ≠ comp := by
  intro r hr hcontra
  rw [processChunk_inserts] at hr
  obtain ⟨kv, hkv, hrkv⟩ := List.mem_filterMap.mp hr
  have hins := insOf_eq_some.mp hrkv
  have hkey : kv.2.compKey = kv.1 := buildIncoming_entry_key mode chunk kv hkv
  have hr2 : r = kv.2 := decideKey_ins_inv hins
  have hk1 : kv.1 = comp := by rw [← hkey, ← hr2]; exact hcontra
  have hkv2 : alGet (buildIncoming mode chunk) kv.1 = some kv.2 :=
    alGet_of_mem_nodup (alKeys_buildIncoming_nodup mode chunk) (by simpa using hkv)
  rw [hk1, him] at hkv2
  cases hkv2
  rw [hk1] at hins
  exact hno r hins

/-- Null merged quantity with a read row: the chunk issues no update for
that row. -/
theorem updates_filter_nullQty (mode : QMode) (store : List ExistingRow)
    (chunk : List ProdutoRow) (comp : String) (inc : ProdutoRow)
    (e : ExistingRow)
    (hids : (store.map (fun x => x.id)).Nodup)
    (him : alGet (buildIncoming mode chunk) comp = some inc)
    (hpc : jsTrim (inc.produto_codigo.getD "") ≠ "")
    (hem : alGet (chunkEM mode store chunk) comp = some e)
    (hq : inc.quantidade = none) :
    (processChunk mode store chunk).updates.filter (fun u => u.1 = e.id) = [] := by
  obtain ⟨l1, l2, hsplit, hk1, hk2⟩ :=
    alGet_split (alKeys_buildIncoming_nodup mode chunk) him
  have heFacts := @buildExisting_entries (selectExisting store
    (produtoKeys (buildIncoming mode chunk))) _ (alGet_mem hem)
  have heStore : e ∈ store := (mem_selectExisting heFacts.1).1
  have heKey : e.compKey = comp := heFacts.2
  have hother : ∀ kv ∈ l1 ++ l2, ∀ u : Nat × Int,
      updOf mode (chunkEM mode store chunk) kv = some u → u.1 ≠ e.id := by
    intro kv hkv u hu
    obtain ⟨e', qIn', he', hi, _, _, _⟩ :=
      decideKey_upd_inv (updOf_eq_some.mp hu)
    have he'Facts := buildExisting_entries _ (alGet_mem he')
    have he'Store : e' ∈ store := (mem_selectExisting he'Facts.1).1
    have he'Key : e'.compKey = kv.1 := he'Facts.2
    have hkne : kv.1 ≠ comp := by
      intro hcontra
      rcases List.mem_append.mp hkv with hmem | hmem
      · exact hk1 (hcontra ▸ List.mem_map.mpr ⟨kv, hmem, rfl⟩)
      · exact hk2 (hcontra ▸ List.mem_map.mpr ⟨kv, hmem, rfl⟩)
    intro hid
    apply hkne
    rw [← he'Key, ← heKey]
    congr 1
    exact store_id_inj hids he'Store heStore (by rw [← hi, hid])
  have hcenter : updOf mode (chunkEM mode store chunk) (comp, inc) = none := by
    unfold updOf
    rw [decideKey_nullQty mode _ comp inc e hpc hem hq]
  rw [processChunk_updates, hsplit, List.filterMap_append, List.filterMap_cons,
    hcenter, List.filter_append]
  rw [List.filter_eq_nil_iff.mpr (fun u hu => by
    obtain ⟨kv, hkv, hukv⟩ := List.mem_filterMap.mp hu
    simpa using hother kv (List.mem_append.mpr (Or.inl hkv)) u hukv)]
  rw [List.filter_eq_nil_iff.mpr (fun u hu => by
    obtain ⟨kv, hkv, hukv⟩ := List.mem_filterMap.mp hu
    simpa using hother kv (List.mem_append.mpr (Or.inr hkv)) u hukv)]
  rfl

/-- Null merged quantity with a read row: the read row's persisted
quantity is untouched by the chunk. -/
theorem chunk_final_qty_nullQty (mode : QMode) (store : List ExistingRow)
    (chunk : List ProdutoRow) (comp : String) (inc : ProdutoRow)
    (e : ExistingRow)
    (hids : (store.map (fun x => x.id)).Nodup)
    (him : alGet (buildIncoming mode chunk) comp = some inc)
    (hpc : jsTrim (inc.produto_codigo.getD "") ≠ "")
    (hem : alGet (chunkEM mode store chunk) comp = some e)
    (hq : inc.quantidade = none) :
    storeQty (applyChunk store (processChunk mode store chunk)) e.id
      = some e.quantidade := by
  have heFacts := @buildExisting_entries (selectExisting store
    (produtoKeys (buildIncoming mode chunk))) _ (alGet_mem hem)
  have heStore : e ∈ store := (mem_selectExisting heFacts.1).1
  have hfil := updates_filter_nullQty mode store chunk comp inc e hids him hpc hem hq
  unfold applyChunk
  rw [storeQty_foldl_updates_none (fun x hx => by
    have := (List.filter_eq_nil_iff.mp hfil) x hx
    simpa using this)]
  rw [storeQty_applyInserts _ (mem_maxId heStore)]
  exact storeQty_mem hids heStore

/-! ## Claim theorems -/

/-- C1: Delta-mode composite-key reconciliation.  (i) Within a chunk, all
rows sharing a composite key are merged by summing their quantities.
(ii) If the read for that key finds a persisted row with quantity `qOld`
and the merged incoming quantity is `qIn`, the chunk issues exactly one
update for that row, setting its quantity to `qOld + qIn` — and none when
`qOld + qIn = qOld`.  (iii) Concretely: existing quantity 5 for
`(C1, P1, O1)` with incoming lines 2 and 3 yields exactly one update call,
`(id 1, 10)`, and final persisted quantity 10. -/
theorem C1_delta_composite_reconciliation :
    (∀ (chunk : List ProdutoRow) (comp : String),
      (chunk.map normChunkRow).filter (fun r => r.compKey = comp) ≠ [] →
      (∀ r ∈ (chunk.map normChunkRow).filter (fun r => r.compKey = comp),
        r.quantidade.isSome) →
      ∃ inc, alGet (buildIncoming .delta chunk) comp = some inc ∧
        inc.quantidade = some ((((chunk.map normChunkRow).filter
          (fun r => r.compKey = comp)).map fun r => r.quantidade.getD 0).sum))
    ∧
    (∀ (store : List ExistingRow) (chunk : List ProdutoRow) (comp : String)
        (inc : ProdutoRow) (e : ExistingRow) (qOld qIn : Int),
      (store.map (fun x => x.id)).Nodup →
      alGet (buildIncoming .delta chunk) comp = some inc →
      jsTrim (inc.produto_codigo.getD "") ≠ "" →
      alGet (chunkEM .delta store chunk) comp = some e →
      e.quantidade = some qOld →
      inc.quantidade = some qIn →
      (processChunk .delta store chunk).updates.filter (fun u => u.1 = e.id)
        = (if qOld + qIn ≠ qOld then [(e.id, qOld + qIn)] else [])
      ∧ storeQty (applyChunk store (processChunk .delta store chunk)) e.id
          = some (some (qOld + qIn)))
    ∧
    ((syncProductsQuantityComposite .delta 120 exRows exStore).2.1 = [(1, 10)]
      ∧ storeQty (syncProductsQuantityComposite .delta 120 exRows exStore).2.2 1
          = some (some 10)) := by
  refine ⟨delta_merge_sum, ?_, by decide, by decide⟩
  intro store chunk comp inc e qOld qIn hids him hpc hem heq hq
  have hg : e.quantidade.getD 0 = qOld := by rw [heq]; rfl
  constructor
  · have h := updates_filter_eq .delta store chunk comp inc e qIn hids him hpc hem hq
    rw [hg] at h
    exact h
  · have h := chunk_final_qty .delta store chunk comp inc e qOld qIn
      hids him hpc hem hq heq
    exact h

/-- Witness for C1 at the concrete scenario: the chunk-level update set
for the persisted row id 1 is exactly `[(1, 10)]`, and the merged entry
for the key sums 2 and 3 to 5. -/
theorem C1_witness :
    (processChunk .delta exStore exRows).updates.filter (fun u => u.1 = 1)
        = [(1, 10)]
    ∧ (∃ inc, alGet (buildIncoming .delta exRows) "C1|P1|O1" = some inc ∧
        inc.quantidade = some 5) := by
  constructor
  · have h := C1_delta_composite_reconciliation.2.1 exStore exRows "C1|P1|O1"
      (mkRow (some "C1") (some "P1") (some "O1") (some 5))
      { id := 1, cliente_codigo := some "C1", produto_codigo := some "P1",
        id_pedido := some "O1", quantidade := some 5 } 5 5
      (by decide) (by decide) (by decide) (by decide) (by decide) (by decide)
    exact h.1.trans (by decide)
  · obtain ⟨inc, h1, h2⟩ := C1_delta_composite_reconciliation.1 exRows "C1|P1|O1"
      (by decide) (by decide)
    exact ⟨inc, h1, h2.trans (by decide)⟩

/-- C7: Absolute-mode composite-key reconciliation.  (i) Within a chunk,
rows sharing a composite key merge to the last incoming value in document
order.  (ii) When the read finds a persisted row with quantity `qOld` and
the merged incoming quantity is `qIn`, the persisted quantity becomes
exactly `qIn` (one update when `qIn ≠ qOld`, none — leaving `qOld = qIn` —
otherwise).  (iii) Concretely: existing 5, incoming 2 then 3 → final
persisted quantity 3, not 5. -/
theorem C7_absolute_composite_reconciliation :
    (∀ (chunk : List ProdutoRow) (comp : String),
      (chunk.map normChunkRow).filter (fun r => r.compKey = comp) ≠ [] →
      ∃ inc last, alGet (buildIncoming .absolute chunk) comp = some inc ∧
        ((chunk.map normChunkRow).filter (fun r => r.compKey = comp)).getLast?
          = some last ∧
        inc.quantidade = last.quantidade)
    ∧
    (∀ (store : List ExistingRow) (chunk : List ProdutoRow) (comp : String)
        (inc : ProdutoRow) (e : ExistingRow) (qOld qIn : Int),
      (store.map (fun x => x.id)).Nodup →
      alGet (buildIncoming .absolute chunk) comp = some inc →
      jsTrim (inc.produto_codigo.getD "") ≠ "" →
      alGet (chunkEM .absolute store chunk) comp = some e →
      e.quantidade = some qOld →
      inc.quantidade = some qIn →
      (processChunk .absolute store chunk).updates.filter (fun u => u.1 = e.id)
        = (if qIn ≠ qOld then [(e.id, qIn)] else [])
      ∧ storeQty (applyChunk store (processChunk .absolute store chunk)) e.id
          = some (some qIn))
    ∧
    (storeQty (syncProductsQuantityComposite .absolute 120 exRows exStore).2.2 1
        = some (some 3)
      ∧ some (3 : Int) ≠ some (5 : Int)) := by
  refine ⟨absolute_merge_last, ?_, by decide, by decide⟩
  intro store chunk comp inc e qOld qIn hids him hpc hem heq hq
  have hg : e.quantidade.getD 0 = qOld := by rw [heq]; rfl
  constructor
  · have h := updates_filter_eq .absolute store chunk comp inc e qIn hids him hpc hem hq
    rw [hg] at h
    exact h
  · exact chunk_final_qty .absolute store chunk comp inc e qOld qIn
      hids him hpc hem hq heq

/-- Witness for C7 at the concrete scenario: with existing quantity 5 and
merged incoming 3 (the later of 2 then 3), one update to 3 is issued. -/
theorem C7_witness :
    (processChunk .absolute exStore exRows).updates.filter (fun u => u.1 = 1)
        = [(1, 3)]
    ∧ (∃ inc last,
        alGet (buildIncoming .absolute exRows) "C1|P1|O1" = some inc ∧
        ((exRows.map normChunkRow).filter
          (fun r => r.compKey = "C1|P1|O1")).getLast? = some last ∧
        inc.quantidade = last.quantidade) := by
  constructor
  · have h := C7_absolute_composite_reconciliation.2.1 exStore exRows "C1|P1|O1"
      (mkRow (some "C1") (some "P1") (some "O1") (some 3))
      { id := 1, cliente_codigo := some "C1", produto_codigo := some "P1",
        id_pedido := some "O1", quantidade := some 5 } 5 3
      (by decide) (by decide) (by decide) (by decide) (by decide) (by decide)
    exact h.1.trans (by decide)
  · exact C7_absolute_composite_reconciliation.1 exRows "C1|P1|O1" (by decide)

/-- C4: Null-quantity no-op.  (i) The per-key decision with a found
persisted row and a null merged quantity is a no-op.  (ii) At chunk level
this means: no insert carrying that composite key and no update targeting
the read row are issued, and its persisted quantity is read back
unchanged.  (iii) Every update that IS issued carries a quantity computed
from the currently-read persisted value of the row it targets. -/
theorem C4_null_quantity_noop :
    (∀ (mode : QMode) (em : List (String × ExistingRow)) (comp : String)
        (inc : ProdutoRow) (e : ExistingRow),
      jsTrim (inc.produto_codigo.getD "") ≠ "" →
      alGet em comp = some e → inc.quantidade = none →
      decideKey mode em comp inc = .skip)
    ∧
    (∀ (mode : QMode) (store : List ExistingRow) (chunk : List ProdutoRow)
        (comp : String) (inc : ProdutoRow) (e : ExistingRow),
      (store.map (fun x => x.id)).Nodup →
      alGet (buildIncoming mode chunk) comp = some inc →
      jsTrim (inc.produto_codigo.getD "") ≠ "" →
      alGet (chunkEM mode store chunk) comp = some e →
      inc.quantidade = none →
      (∀ r ∈ (processChunk mode store chunk).inserts, r.compKey ≠ comp)
      ∧ (processChunk mode store chunk).updates.filter (fun u => u.1 = e.id) = []
      ∧ storeQty (applyChunk store (processChunk mode store chunk)) e.id
          = some e.quantidade)
    ∧
    (∀ (mode : QMode) (store : List ExistingRow) (chunk : List ProdutoRow),
      ∀ u ∈ (processChunk mode store chunk).updates, ∃ k inc e qIn,
        alGet (buildIncoming mode chunk) k = some inc ∧
        alGet (chunkEM mode store chunk) k = some e ∧
        inc.quantidade = some qIn ∧
        u = (e.id, qNew mode (e.quantidade.getD 0) qIn)) := by
  refine ⟨decideKey_nullQty, ?_, ?_⟩
  · intro mode store chunk comp inc e hids him hpc hem hq
    refine ⟨?_, updates_filter_nullQty mode store chunk comp inc e hids him hpc hem hq,
      chunk_final_qty_nullQty mode store chunk comp inc e hids him hpc hem hq⟩
    apply no_insert_of_not_ins mode store chunk comp inc him
    intro r hcontra
    rw [decideKey_nullQty mode _ comp inc e hpc hem hq] at hcontra
    cases hcontra
  · intro mode store chunk u hu
    obtain ⟨k, inc, e, qIn, h1, h2, h3, h4, _⟩ :=
      updates_provenance mode store chunk u hu
    exact ⟨k, inc, e, qIn, h1, h2, h3, h4⟩

/-- Witness for C4: a chunk whose single row for key `(C1, P1, O1)` has a
null quantity issues no update for the persisted row and leaves its
quantity 5 readable unchanged. -/
theorem C4_witness :
    (processChunk .delta exStore
        [mkRow (some "C1") (some "P1") (some "O1") none]).updates.filter
      (fun u => u.1 = 1) = []
    ∧ storeQty (applyChunk exStore (processChunk .delta exStore
        [mkRow (some "C1") (some "P1") (some "O1") none])) 1
      = some (some 5) := by
  have h := C4_null_quantity_noop.2.1 .delta exStore
    [mkRow (some "C1") (some "P1") (some "O1") none] "C1|P1|O1"
    (mkRow (some "C1") (some "P1") (some "O1") none)
    { id := 1, cliente_codigo := some "C1", produto_codigo := some "P1",
      id_pedido := some "O1", quantidade := some 5 }
    (by decide) (by decide) (by decide) (by decide) (by decide)
  exact ⟨h.2.1, h.2.2.trans (by decide)⟩

/-! ## Cross-run behaviour of the configured delta mode -/

/-- One delta-mode run over the single-line document adds the incoming
quantity to the persisted one: the store moves from `a` to `a + q`. -/
theorem c2_run (a q : Int) :
    (syncProductsQuantityComposite .delta 120 (c2Rows q) (c2Store a)).2.2
      = c2Store (a + q) := by
  have him : buildIncoming .delta (c2Rows q)
      = [("C1|P1|O1", mkRow (some "C1") (some "P1") (some "O1") (some q))] := rfl
  have hemfull : chunkEM .delta (c2Store a) (c2Rows q)
      = [("C1|P1|O1", (⟨1, some "C1", some "P1", some "O1", some a⟩ : ExistingRow))] := rfl
  have hem : alGet (chunkEM .delta (c2Store a) (c2Rows q)) "C1|P1|O1"
      = some (⟨1, some "C1", some "P1", some "O1", some a⟩ : ExistingRow) := by
    rw [hemfull]
    simp [alGet]
  have hdec : decideKey .delta (chunkEM .delta (c2Store a) (c2Rows q))
      "C1|P1|O1" (mkRow (some "C1") (some "P1") (some "O1") (some q))
      = if a + q ≠ a then .upd 1 (a + q) else .skip := by
    have h := decideKey_someQty .delta (chunkEM .delta (c2Store a) (c2Rows q))
      "C1|P1|O1" (mkRow (some "C1") (some "P1") (some "O1") (some q))
      (⟨1, some "C1", some "P1", some "O1", some a⟩ : ExistingRow) q
      (by show jsTrim "P1" ≠ ""; decide) hem rfl
    simpa [qNew] using h
  have hins : (processChunk .delta (c2Store a) (c2Rows q)).inserts = [] := by
    rw [processChunk_inserts, him]
    simp only [List.filterMap_cons, List.filterMap_nil]
    unfold insOf
    rw [hdec]
    by_cases hc : a + q ≠ a
    · rw [if_pos hc]
    · rw [if_neg hc]
  have hupd : (processChunk .delta (c2Store a) (c2Rows q)).updates
      = if a + q ≠ a then [(1, a + q)] else [] := by
    rw [processChunk_updates, him]
    simp only [List.filterMap_cons, List.filterMap_nil]
    unfold updOf
    rw [hdec]
    by_cases hc : a + q ≠ a
    · rw [if_pos hc, if_pos hc]
    · rw [if_neg hc, if_neg hc]
  have hsync : (syncProductsQuantityComposite .delta 120 (c2Rows q) (c2Store a)).2.2
      = applyChunk (c2Store a) (processChunk .delta (c2Store a) (c2Rows q)) := rfl
  rw [hsync]
  unfold applyChunk
  rw [hins, hupd]
  have hai : applyInserts (c2Store a) [] = c2Store a := by
    simp [applyInserts]
  rw [hai]
  by_cases hc : a + q ≠ a
  · rw [if_pos hc]
    show applyUpdate (c2Store a) (1, a + q) = c2Store (a + q)
    simp [applyUpdate, c2Store]
  · rw [if_neg hc]
    push_neg at hc
    show c2Store a = c2Store (a + q)
    rw [hc]

/-- C2 counterexample: in the configured delta mode, running the engine a
second time on the same single-line document (quantity 2) against the
store it just produced changes the store again — final quantity 9 instead
of staying at 7 — so two runs do not equal one run. -/
theorem C2_counterexample :
    (syncProductsQuantityComposite .delta 120 exRows2
        (syncProductsQuantityComposite .delta 120 exRows2 exStore).2.2).2.2
      ≠ (syncProductsQuantityComposite .delta 120 exRows2 exStore).2.2 := by
  decide

/-- C2 amended: the engine is NOT cross-run idempotent in its configured
delta mode.  For a persisted quantity `q0` and a document with one line of
quantity `q` for that key, one run leaves `q0 + q`, a second run leaves
`q0 + 2q`; whenever `q ≠ 0` the second run changes the store again
(double-counting the incoming quantity). -/
theorem C2_delta_not_idempotent (q0 q : Int) :
    (syncProductsQuantityComposite .delta 120 (c2Rows q) (c2Store q0)).2.2
      = c2Store (q0 + q)
    ∧ (syncProductsQuantityComposite .delta 120 (c2Rows q)
        (syncProductsQuantityComposite .delta 120 (c2Rows q)
          (c2Store q0)).2.2).2.2
      = c2Store (q0 + 2 * q)
    ∧ (q ≠ 0 →
        (syncProductsQuantityComposite .delta 120 (c2Rows q)
          (syncProductsQuantityComposite .delta 120 (c2Rows q)
            (c2Store q0)).2.2).2.2
        ≠ (syncProductsQuantityComposite .delta 120 (c2Rows q)
            (c2Store q0)).2.2) := by
  have h1 : (syncProductsQuantityComposite .delta 120 (c2Rows q)
      (c2Store q0)).2.2 = c2Store (q0 + q) := c2_run q0 q
  have h2 : (syncProductsQuantityComposite .delta 120 (c2Rows q)
      (syncProductsQuantityComposite .delta 120 (c2Rows q)
        (c2Store q0)).2.2).2.2 = c2Store (q0 + 2 * q) := by
    rw [h1, c2_run (q0 + q) q]
    rw [show q0 + q + q = q0 + 2 * q by ring]
  refine ⟨h1, h2, ?_⟩
  intro hq hc
  rw [h2, h1] at hc
  have : q0 + 2 * q = q0 + q := by
    have := congrArg (fun l => storeQty l 1) hc
    simpa [c2Store, storeQty] using this
  omega

/-- Witness for the amended C2 at `q0 = 5`, `q = 2`: one run gives 7, two
runs give 9, and the states differ. -/
theorem C2_witness :
    (syncProductsQuantityComposite .delta 120 (c2Rows 2)
        (syncProductsQuantityComposite .delta 120 (c2Rows 2)
          (c2Store 5)).2.2).2.2
      = c2Store 9
    ∧ (syncProductsQuantityComposite .delta 120 (c2Rows 2)
        (syncProductsQuantityComposite .delta 120 (c2Rows 2)
          (c2Store 5)).2.2).2.2
      ≠ (syncProductsQuantityComposite .delta 120 (c2Rows 2)
          (c2Store 5)).2.2 := by
  have h := C2_delta_not_idempotent 5 2
  exact ⟨h.2.1.trans (by norm_num), h.2.2 (by norm_num)⟩

/-! ## At most one insert per composite key -/

theorem exist_produto_compKey_eq {w : ExistingRow} {r : ProdutoRow}
    (h1 : w.cliente_codigo = r.cliente_codigo)
    (h2 : w.produto_codigo = r.produto_codigo)
    (h3 : w.id_pedido = r.id_pedido) : w.compKey = r.compKey := by
  unfold ExistingRow.compKey ProdutoRow.compKey
  rw [h1, h2, h3]

theorem exist_exist_compKey_eq {w w0 : ExistingRow}
    (h1 : w.cliente_codigo = w0.cliente_codigo)
    (h2 : w.produto_codigo = w0.produto_codigo)
    (h3 : w.id_pedido = w0.id_pedido) : w.compKey = w0.compKey := by
  unfold ExistingRow.compKey
  rw [h1, h2, h3]

theorem insert_mem_entry {mode : QMode} {store : List ExistingRow}
    {chunk : List ProdutoRow} {r : ProdutoRow}
    (hr : r ∈ (processChunk mode store chunk).inserts) :
    ∃ kv ∈ buildIncoming mode chunk, r = kv.2 ∧ kv.2.compKey = kv.1 ∧
      decideKey mode (chunkEM mode store chunk) kv.1 kv.2 = .ins r := by
  rw [processChunk_inserts] at hr
  obtain ⟨kv, hkv, hrkv⟩ := List.mem_filterMap.mp hr
  have hins := insOf_eq_some.mp hrkv
  exact ⟨kv, hkv, decideKey_ins_inv hins,
    buildIncoming_entry_key mode chunk kv hkv, hins⟩

/-- No aggregated entry for a key means no insert with that key. -/
theorem no_insert_of_no_entry {mode : QMode} {store : List ExistingRow}
    {chunk : List ProdutoRow} {K : String}
    (him : alGet (buildIncoming mode chunk) K = none) :
    (processChunk mode store chunk).inserts.filter
      (fun r => r.compKey = K) = [] := by
  rw [List.filter_eq_nil_iff]
  intro r hr hK
  obtain ⟨kv, hkv, hrkv, hkey, _⟩ := insert_mem_entry hr
  have : kv.1 = K := by rw [← hkey, ← hrkv]; simpa using hK
  subst this
  rw [alGet_eq_none_iff] at him
  exact him (List.mem_map.mpr ⟨kv, hkv, rfl⟩)

/-- Within one chunk, at most one insert carries a given composite key. -/
theorem chunk_inserts_key_le_one (mode : QMode) (store : List ExistingRow)
    (chunk : List ProdutoRow) (K : String) :
    ((processChunk mode store chunk).inserts.filter
      (fun r => r.compKey = K)).length ≤ 1 := by
  rw [processChunk_inserts]
  have hnd := alKeys_buildIncoming_nodup mode chunk
  have hkeys := buildIncoming_entry_key mode chunk
  revert hnd hkeys
  generalize buildIncoming mode chunk = l
  intro hnd hkeys
  induction l with
  | nil => simp
  | cons kv t ih =>
    simp only [alKeys, List.map_cons, List.nodup_cons] at hnd
    have ihl := ih hnd.2 (fun x hx => hkeys x (List.mem_cons_of_mem _ hx))
    cases hins : insOf mode (chunkEM mode store chunk) kv with
    | none =>
      rw [List.filterMap_cons_none hins]
      exact ihl
    | some r =>
      rw [List.filterMap_cons_some hins]
      have hr : r = kv.2 := decideKey_ins_inv (insOf_eq_some.mp hins)
      by_cases hK : r.compKey = K
      · rw [List.filter_cons_of_pos (by simpa using hK)]
        have hk1 : kv.1 = K := by
          rw [← hkeys kv (by simp), ← hr]
          exact hK
        have htail : (t.filterMap (insOf mode (chunkEM mode store chunk))).filter
            (fun r => r.compKey = K) = [] := by
          rw [List.filter_eq_nil_iff]
          intro r' hr' hK'
          obtain ⟨kv', hkv', hrkv'⟩ := List.mem_filterMap.mp hr'
          have hr2 : r' = kv'.2 := decideKey_ins_inv (insOf_eq_some.mp hrkv')
          have : kv'.1 = K := by
            rw [← hkeys kv' (List.mem_cons_of_mem _ hkv'), ← hr2]
            simpa using hK'
          apply hnd.1
          rw [hk1, ← this]
          exact List.mem_map.mpr ⟨kv', hkv', rfl⟩
        rw [htail]
        simp
      · rw [List.filter_cons_of_neg (by simpa using hK)]
        exact ihl

/-- Updates do not change a row's key fields, so surviving rows keep
their composite key and product code through a chunk's writes. -/
theorem foldl_applyUpdate_preserves (us : List (Nat × Int)) :
    ∀ (st : List ExistingRow) (w : ExistingRow), w ∈ st →
      ∃ w', w' ∈ us.foldl applyUpdate st ∧
        w'.cliente_codigo = w.cliente_codigo ∧
        w'.produto_codigo = w.produto_codigo ∧
        w'.id_pedido = w.id_pedido := by
  induction us with
  | nil => exact fun st w hw => ⟨w, hw, rfl, rfl, rfl⟩
  | cons u t ih =>
    intro st w hw
    have hfw : (if w.id = u.1 then ({ w with quantidade := some u.2 } : ExistingRow)
        else w) ∈ applyUpdate st u := by
      unfold applyUpdate
      exact List.mem_map.mpr ⟨w, hw, rfl⟩
    have hfields :
        (if w.id = u.1 then ({ w with quantidade := some u.2 } : ExistingRow)
          else w).cliente_codigo = w.cliente_codigo ∧
        (if w.id = u.1 then ({ w with quantidade := some u.2 } : ExistingRow)
          else w).produto_codigo = w.produto_codigo ∧
        (if w.id = u.1 then ({ w with quantidade := some u.2 } : ExistingRow)
          else w).id_pedido = w.id_pedido := by
      by_cases hid : w.id = u.1 <;> simp [hid]
    obtain ⟨w', hw', h1, h2, h3⟩ := ih (applyUpdate st u) _ hfw
    refine ⟨w', by simpa using hw', ?_, ?_, ?_⟩
    · rw [h1, hfields.1]
    · rw [h2, hfields.2.1]
    · rw [h3, hfields.2.2]

theorem applyChunk_store_preserves {store : List ExistingRow}
    (cr : ChunkResult) {w : ExistingRow} (hw : w ∈ store) :
    ∃ w', w' ∈ applyChunk store cr ∧
      w'.cliente_codigo = w.cliente_codigo ∧
      w'.produto_codigo = w.produto_codigo ∧
      w'.id_pedido = w.id_pedido := by
  unfold applyChunk
  exact foldl_applyUpdate_preserves cr.updates _ w
    (by unfold applyInserts; exact List.mem_append_left _ hw)

theorem applyChunk_insert_mem {store : List ExistingRow}
    (cr : ChunkResult) {r : ProdutoRow} (hr : r ∈ cr.inserts) :
    ∃ w', w' ∈ applyChunk store cr ∧
      w'.cliente_codigo = r.cliente_codigo ∧
      w'.produto_codigo = r.produto_codigo ∧
      w'.id_pedido = r.id_pedido := by
  obtain ⟨i, hi, hrow⟩ := List.mem_iff_getElem.mp hr
  have henum : (i, r) ∈ cr.inserts.enum := by
    rw [List.mk_mem_enum_iff_getElem?]
    simp [List.getElem?_eq_getElem hi, hrow]
  have hw : (⟨maxId store + 1 + i, r.cliente_codigo, r.produto_codigo,
      r.id_pedido, r.quantidade⟩ : ExistingRow) ∈ applyInserts store cr.inserts := by
    unfold applyInserts
    exact List.mem_append_right _ (List.mem_map.mpr ⟨(i, r), henum, rfl⟩)
  unfold applyChunk
  obtain ⟨w', hw', h1, h2, h3⟩ := foldl_applyUpdate_preserves cr.updates _ _ hw
  exact ⟨w', hw', h1, h2, h3⟩

theorem decideKey_not_ins {mode : QMode} {em : List (String × ExistingRow)}
    {comp : String} {inc : ProdutoRow}
    (hpc : jsTrim (inc.produto_codigo.getD "") ≠ "")
    (hsome : (alGet em comp).isSome) :
    ∀ r, decideKey mode em comp inc ≠ .ins r := by
  intro r h
  obtain ⟨e, he⟩ := Option.isSome_iff_exists.mp hsome
  cases hq : inc.quantidade with
  | none => rw [decideKey_nullQty mode em comp inc e hpc he hq] at h; cases h
  | some qIn =>
    rw [decideKey_someQty mode em comp inc e qIn hpc he hq] at h
    split at h <;> cases h

theorem merged_produto_of_rows {mode : QMode} {c : List ProdutoRow}
    {K p : String}
    (hc : ∀ r ∈ c, (normChunkRow r).compKey = K →
      (normChunkRow r).produto_codigo = some p)
    {inc : ProdutoRow} (him : alGet (buildIncoming mode c) K = some inc) :
    inc.produto_codigo = some p := by
  apply merge_produto_codigo mode c K (some p) ?_ him
  intro x hx
  obtain ⟨hx1, hx2⟩ := List.mem_filter.mp hx
  obtain ⟨r, hr, hrx⟩ := List.mem_map.mp hx1
  rw [← hrx]
  exact hc r hr (by rw [hrx]; simpa using hx2)

/-- If the store already holds a row with key `K` and the (trimmed,
nonempty) product code `p` shared by `K`'s rows, the chunk inserts
nothing with key `K`. -/
theorem chunk_no_K_insert (mode : QMode) (S : List ExistingRow)
    (c : List ProdutoRow) (K p : String) (hp : p ≠ "") (hpt : jsTrim p = p)
    (hc : ∀ r ∈ c, (normChunkRow r).compKey = K →
      (normChunkRow r).produto_codigo = some p)
    (hS : ∃ w, w ∈ S ∧ w.compKey = K ∧ w.produto_codigo = some p) :
    (processChunk mode S c).inserts.filter (fun r => r.compKey = K) = [] := by
  cases him : alGet (buildIncoming mode c) K with
  | none => exact no_insert_of_no_entry him
  | some inc =>
    have hprod : inc.produto_codigo = some p := merged_produto_of_rows hc him
    have hpcode : jsTrim (inc.produto_codigo.getD "") = p := by
      rw [hprod]
      exact hpt
    have hpne : jsTrim (inc.produto_codigo.getD "") ≠ "" := by
      rw [hpcode]; exact hp
    obtain ⟨w, hwS, hwK, hwp⟩ := hS
    have hkmem : p ∈ produtoKeys (buildIncoming mode c) := by
      have h := produtoKeys_mem (alGet_mem him) (by simpa [hpcode] using hpne)
      simpa [hpcode] using h
    have hwsel : w ∈ selectExisting S (produtoKeys (buildIncoming mode c)) := by
      unfold selectExisting
      rw [if_neg (List.ne_nil_of_mem hkmem)]
      refine List.mem_filter.mpr ⟨hwS, ?_⟩
      rw [hwp]
      simpa using hkmem
    have hsome : (alGet (chunkEM mode S c) K).isSome := by
      unfold chunkEM
      rw [← hwK]
      exact buildExisting_key_present hwsel
    rw [List.filter_eq_nil_iff]
    intro r hr hK
    exact no_insert_of_not_ins mode S c K inc him
      (decideKey_not_ins hpne hsome) r hr (by simpa using hK)

/-- A `K`-insert issued by the chunk leaves an exact-match row in the
written store. -/
theorem hasExact_after_insert (mode : QMode) (S : List ExistingRow)
    (c : List ProdutoRow) (K p : String)
    (hc : ∀ r ∈ c, (normChunkRow r).compKey = K →
      (normChunkRow r).produto_codigo = some p)
    {r : ProdutoRow} (hr : r ∈ (processChunk mode S c).inserts)
    (hK : r.compKey = K) :
    ∃ w, w ∈ applyChunk S (processChunk mode S c) ∧ w.compKey = K ∧
      w.produto_codigo = some p := by
  obtain ⟨kv, hkv, hrkv, hkey, _⟩ := insert_mem_entry hr
  have hk1 : kv.1 = K := by rw [← hkey, ← hrkv]; exact hK
  have him : alGet (buildIncoming mode c) K = some kv.2 := by
    rw [← hk1]
    exact alGet_of_mem_nodup (alKeys_buildIncoming_nodup mode c) (by simpa using hkv)
  have hprod : kv.2.produto_codigo = some p := merged_produto_of_rows hc him
  obtain ⟨w', hw', h1, h2, h3⟩ := applyChunk_insert_mem (processChunk mode S c) hr
  refine ⟨w', hw', ?_, ?_⟩
  · rw [exist_produto_compKey_eq h1 h2 h3]
    exact hK
  · rw [h2, hrkv]
    exact hprod

theorem hasExact_preserved {S : List ExistingRow} (cr : ChunkResult)
    {K p : String} (hS : ∃ w, w ∈ S ∧ w.compKey = K ∧ w.produto_codigo = some p) :
    ∃ w, w ∈ applyChunk S cr ∧ w.compKey = K ∧ w.produto_codigo = some p := by
  obtain ⟨w, hwS, hwK, hwp⟩ := hS
  obtain ⟨w', hw', h1, h2, h3⟩ := applyChunk_store_preserves cr hwS
  exact ⟨w', hw', by rw [exist_exist_compKey_eq h1 h2 h3]; exact hwK,
    by rw [h2]; exact hwp⟩

/-- Run-level bound: across all chunks, a key whose rows agree on a
trimmed nonempty product code is inserted at most once — and never when
the store already holds an exact-match row. -/
theorem runChunks_key_inserts (mode : QMode) (K p : String)
    (hp : p ≠ "") (hpt : jsTrim p = p) :
    ∀ (cs : List (List ProdutoRow)) (S : List ExistingRow),
      (∀ c ∈ cs, ∀ r ∈ c, (normChunkRow r).compKey = K →
        (normChunkRow r).produto_codigo = some p) →
      ((((runChunks mode cs S).1.filter (fun r => r.compKey = K)).length ≤ 1)
       ∧ ((∃ w, w ∈ S ∧ w.compKey = K ∧ w.produto_codigo = some p) →
          ((runChunks mode cs S).1.filter (fun r => r.compKey = K)).length = 0)) := by
  intro cs
  induction cs with
  | nil => intro S _; simp [runChunks]
  | cons c cs' ih =>
    intro S hcs
    have hc : ∀ r ∈ c, (normChunkRow r).compKey = K →
        (normChunkRow r).produto_codigo = some p :=
      hcs c (by simp)
    have hcs' : ∀ c' ∈ cs', ∀ r ∈ c', (normChunkRow r).compKey = K →
        (normChunkRow r).produto_codigo = some p :=
      fun c' h => hcs c' (List.mem_cons_of_mem _ h)
    have hlen : (runChunks mode (c :: cs') S).1.filter (fun r => r.compKey = K)
        = ((processChunk mode S c).inserts.filter (fun r => r.compKey = K))
          ++ ((runChunks mode cs' (applyChunk S (processChunk mode S c))).1.filter
              (fun r => r.compKey = K)) := by
      show (((processChunk mode S c).inserts
          ++ (runChunks mode cs' (applyChunk S (processChunk mode S c))).1).filter
            (fun r => r.compKey = K)) = _
      rw [List.filter_append]
    have ihS' := ih (applyChunk S (processChunk mode S c)) hcs'
    constructor
    · rw [hlen, List.length_append]
      cases hfil : (processChunk mode S c).inserts.filter
          (fun r => r.compKey = K) with
      | nil =>
        simpa [hfil] using (ih (applyChunk S (processChunk mode S c)) hcs').1
      | cons r tail =>
        have hrmem : r ∈ (processChunk mode S c).inserts.filter
            (fun r => r.compKey = K) := by rw [hfil]; simp
        have hr := List.mem_filter.mp hrmem
        have hrest := ihS'.2 (hasExact_after_insert mode S c K p hc hr.1
          (by simpa using hr.2))
        rw [hrest]
        have hc1 := chunk_inserts_key_le_one mode S c K
        rw [hfil] at hc1
        simpa using hc1
    · intro hS
      rw [hlen, List.length_append]
      rw [chunk_no_K_insert mode S c K p hp hpt hc hS]
      rw [ihS'.2 (hasExact_preserved _ hS)]
      rfl

/-- C3 counterexample: two rows with the SAME composite key but an empty
product code, split across two chunks (batch 1), are BOTH inserted — the
empty-code branch at line 242 inserts unconditionally and such rows are
never fetched by the existing-rows read. -/
theorem C3_counterexample :
    ¬ (((syncProductsQuantityComposite .delta 1 exRows3 []).1.filter
        (fun r => r.compKey = "C1||O1")).length ≤ 1) := by
  decide

/-- C3 amended: (i) across a whole run, a composite key all of whose rows
carry one fixed, already-trimmed, nonempty product code is inserted at
most once, for every store state, batch size and mode; (ii) within a
single chunk every composite key — including ones with empty product
code — is inserted at most once.  (Keys with empty product code can be
inserted once per chunk, hence more than once per run, as the
counterexample shows.) -/
theorem C3_at_most_one_insert :
    (∀ (mode : QMode) (batch : Nat) (rows : List ProdutoRow)
        (store : List ExistingRow) (K p : String),
      p ≠ "" → jsTrim p = p →
      (∀ r ∈ rows, (normChunkRow r).compKey = K →
        (normChunkRow r).produto_codigo = some p) →
      ((syncProductsQuantityComposite mode batch rows store).1.filter
          (fun r => r.compKey = K)).length ≤ 1)
    ∧ (∀ (mode : QMode) (store : List ExistingRow) (chunk : List ProdutoRow)
        (K : String),
      ((processChunk mode store chunk).inserts.filter
          (fun r => r.compKey = K)).length ≤ 1) := by
  refine ⟨?_, chunk_inserts_key_le_one⟩
  intro mode batch rows store K p hp hpt hrows
  refine (runChunks_key_inserts mode K p hp hpt (chunksOf batch rows) store ?_).1
  intro c hc r hr
  exact hrows r (mem_of_mem_chunksOf hc hr)

/-- Witness for the amended C3: two same-key rows with product code `P1`
split across two chunks produce at most one insert. -/
theorem C3_witness :
    ((syncProductsQuantityComposite .delta 1
        [mkRow (some "C1") (some "P1") (some "O1") (some 1),
         mkRow (some "C1") (some "P1") (some "O1") (some 2)] []).1.filter
      (fun r => r.compKey = "C1|P1|O1")).length ≤ 1 :=
  C3_at_most_one_insert.1 .delta 1
    [mkRow (some "C1") (some "P1") (some "O1") (some 1),
     mkRow (some "C1") (some "P1") (some "O1") (some 2)] []
    "C1|P1|O1" "P1" (by decide) (by decide) (by decide)

/-- C5: Timestamp normalization.  The two literal encodings map to
canonical ISO-UTC strings, zero-date sentinels (tested on the trimmed
value, as the code does) map to null, and every string matching none of
the three recognized encodings maps to null.  The model is a total
function, mirroring the JS function, which returns on every branch and
never throws. -/
theorem C5_timestamp_normalization :
    sanitizeDateValue (some "29/11/2025") = some "2025-11-29T00:00:00Z"
    ∧ sanitizeDateValue (some "2024-03-18 10:12:40")
        = some "2024-03-18T10:12:40Z"
    ∧ sanitizeDateValue (some "0000-00-00 00:00:00") = none
    ∧ (∀ s : String, isLikelyZeroDate (jsTrim s) = true →
        sanitizeDateValue (some s) = none)
    ∧ (∀ s : String, isoTZShape (jsTrim s) = false →
        isoSpaceShape (jsTrim s) = false →
        parseDateString (some (jsTrim s)) = none →
        sanitizeDateValue (some s) = none) := by
  refine ⟨by decide, by decide, by decide, ?_, ?_⟩
  · intro s h
    unfold sanitizeDateValue
    by_cases h0 : jsTrim s = "" <;> simp [h0, h]
  · intro s h1 h2 h3
    unfold sanitizeDateValue
    by_cases h0 : jsTrim s = ""
    · simp [h0]
    · by_cases hz : isLikelyZeroDate (jsTrim s) || strStarts "0000" (jsTrim s)
      · simp [h0, hz]
      · simp [h0, hz, h1, h2, h3]

/-- Witness for C5: a zero-date sentinel and an unparseable string both
normalise to null through the universal clauses. -/
theorem C5_witness :
    sanitizeDateValue (some " 0000-00-00 junk") = none
    ∧ sanitizeDateValue (some "not a date") = none := by
  constructor
  · exact C5_timestamp_normalization.2.2.2.1 " 0000-00-00 junk" (by decide)
  · exact C5_timestamp_normalization.2.2.2.2 "not a date" (by decide) (by decide)
      (by decide)

/-- C6 counterexample: the normalizer of `scripts/sync_from_general.js`
checks emptiness BEFORE stripping, so an input whose characters are all
stripped yields the empty string, not null — refuting "whenever the
result after stripping is the empty string it returns null". -/
theorem C6_counterexample :
    normalizeCodigo (some "@@") = some "" ∧ some "" ≠ (none : Option String) := by
  decide

/-- C6 amended: the scripts variant returns null for null input and for
blank-trimming input, and otherwise returns the trimmed input stripped
to `[A-Za-z0-9_.-]` — possibly the empty string.  The
leading-zero-stripping variant (unnamed companion script) additionally
strips leading zeros, never returns the empty string (empty results
become null), and maps `"  007-A "` to `"7-A"`. -/
theorem C6_identifier_normalization :
    normalizeCodigo none = none
    ∧ (∀ v, jsTrim v = "" → normalizeCodigo (some v) = none)
    ∧ (∀ v, jsTrim v ≠ "" → normalizeCodigo (some v)
        = some ⟨(jsTrim v).data.filter isCodigoChar⟩)
    ∧ normalizeCodigoZeroStrip none = none
    ∧ (∀ v, normalizeCodigoZeroStrip (some v) = none ∨
        ∃ t, normalizeCodigoZeroStrip (some v) = some t ∧ t ≠ "")
    ∧ normalizeCodigoZeroStrip (some "  007-A ") = some "7-A" := by
  refine ⟨rfl, ?_, ?_, rfl, ?_, by decide⟩
  · intro v h
    unfold normalizeCodigo
    simp [h]
  · intro v h
    unfold normalizeCodigo
    simp [h]
  · intro v
    unfold normalizeCodigoZeroStrip
    by_cases h : (⟨(((jsTrim v).data.filter isCodigoChar)).dropWhile (· = '0')⟩ : String) = ""
    · left
      simp [h]
    · right
      exact ⟨_, by simp [h], h⟩

/-- Witness for C6: instantiating the universal clauses at concrete
inputs. -/
theorem C6_witness :
    normalizeCodigo (some "   ") = none
    ∧ normalizeCodigo (some " a b ") = some "ab"
    ∧ (normalizeCodigoZeroStrip (some "000") = none ∨
        ∃ t, normalizeCodigoZeroStrip (some "000") = some t ∧ t ≠ "") := by
  refine ⟨C6_identifier_normalization.2.1 "   " (by decide), ?_, ?_⟩
  · have h := C6_identifier_normalization.2.2.1 " a b " (by decide)
    exact h.trans (by decide)
  · exact C6_identifier_normalization.2.2.2.2.1 "000"

/-- C8: Document locator priority order: the first candidate property
whose value is an array wins; else the first top-level property (for an
array root: the first element) whose value is an array; else an array
root is returned itself; else the empty sequence. -/
theorem C8_locator_priority :
    (∀ (j : Json) (l1 l2 : List String) (n : String) (es : List Json),
      (∀ m ∈ l1, j.isArrProp m = false) →
      j.getProp n = some (.arr es) →
      findArrayByHeuristics j (l1 ++ n :: l2) = es)
    ∧ (∀ (j : Json) (cands k1 k2 : List String) (n : String) (es : List Json),
      (∀ m ∈ cands, j.isArrProp m = false) →
      j.keys = k1 ++ n :: k2 →
      (∀ m ∈ k1, j.isArrProp m = false) →
      j.getProp n = some (.arr es) →
      findArrayByHeuristics j cands = es)
    ∧ (∀ (j : Json) (cands : List String) (es : List Json),
      (∀ m ∈ cands, j.isArrProp m = false) →
      (∀ m ∈ j.keys, j.isArrProp m = false) →
      j = .arr es →
      findArrayByHeuristics j cands = es)
    ∧ (∀ (j : Json) (cands : List String),
      (∀ m ∈ cands, j.isArrProp m = false) →
      (∀ m ∈ j.keys, j.isArrProp m = false) →
      (∀ es, j ≠ .arr es) →
      findArrayByHeuristics j cands = []) := by
  have hnone : ∀ (j : Json) (names : List String),
      (∀ m ∈ names, j.isArrProp m = false) → findLoop j names = none := by
    intro j names h
    induction names with
    | nil => rfl
    | cons n ns ih =>
      have hn := h n (by simp)
      unfold Json.isArrProp at hn
      unfold findLoop
      cases hp : j.getProp n with
      | none => exact ih (fun m hm => h m (List.mem_cons_of_mem _ hm))
      | some v =>
        cases v with
        | arr es => rw [hp] at hn; simp at hn
        | null => exact ih (fun m hm => h m (List.mem_cons_of_mem _ hm))
        | bool b => exact ih (fun m hm => h m (List.mem_cons_of_mem _ hm))
        | num x => exact ih (fun m hm => h m (List.mem_cons_of_mem _ hm))
        | str t => exact ih (fun m hm => h m (List.mem_cons_of_mem _ hm))
        | obj fs => exact ih (fun m hm => h m (List.mem_cons_of_mem _ hm))
  have hfound : ∀ (j : Json) (l1 l2 : List String) (n : String) (es : List Json),
      (∀ m ∈ l1, j.isArrProp m = false) →
      j.getProp n = some (.arr es) →
      findLoop j (l1 ++ n :: l2) = some es := by
    intro j l1 l2 n es h1 hn
    induction l1 with
    | nil => simp [findLoop, hn]
    | cons m ms ih =>
      have hm := h1 m (by simp)
      unfold Json.isArrProp at hm
      show findLoop j (m :: (ms ++ n :: l2)) = some es
      unfold findLoop
      cases hp : j.getProp m with
      | none => exact ih (fun x hx => h1 x (List.mem_cons_of_mem _ hx))
      | some v =>
        cases v with
        | arr es2 => rw [hp] at hm; simp at hm
        | null => exact ih (fun x hx => h1 x (List.mem_cons_of_mem _ hx))
        | bool b => exact ih (fun x hx => h1 x (List.mem_cons_of_mem _ hx))
        | num x => exact ih (fun x hx => h1 x (List.mem_cons_of_mem _ hx))
        | str t => exact ih (fun x hx => h1 x (List.mem_cons_of_mem _ hx))
        | obj fs => exact ih (fun x hx => h1 x (List.mem_cons_of_mem _ hx))
  refine ⟨?_, ?_, ?_, ?_⟩
  · intro j l1 l2 n es h1 hn
    unfold findArrayByHeuristics
    rw [hfound j l1 l2 n es h1 hn]
  · intro j cands k1 k2 n es hc hk hk1 hn
    unfold findArrayByHeuristics
    rw [hnone j cands hc, hk, hfound j k1 k2 n es hk1 hn]
  · intro j cands es hc hk hj
    unfold findArrayByHeuristics
    rw [hnone j cands hc, hnone j j.keys hk, hj]
  · intro j cands hc hk hj
    unfold findArrayByHeuristics
    rw [hnone j cands hc, hnone j j.keys hk]
    cases j with
    | arr es => exact absurd rfl (hj es)
    | null => rfl
    | bool b => rfl
    | num x => rfl
    | str t => rfl
    | obj fs => rfl

/-- Witness for C8: a root whose second candidate names the array, an
object whose second property holds the first array, an array root with
no array-valued properties, and an object with none at all. -/
theorem C8_witness :
    findArrayByHeuristics
        (.obj [("a", .num 1), ("clientes", .arr [.num 2])])
        ["users", "clientes"] = [.num 2]
    ∧ findArrayByHeuristics
        (.obj [("a", .num 1), ("b", .arr [.str "x"])]) ["users"] = [.str "x"]
    ∧ findArrayByHeuristics (.arr [.num 7]) ["users"] = [.num 7]
    ∧ findArrayByHeuristics (.obj [("a", .num 1)]) ["users"] = [] := by
  refine ⟨?_, ?_, ?_, ?_⟩
  · exact C8_locator_priority.1 (.obj [("a", .num 1), ("clientes", .arr [.num 2])])
      ["users"] [] "clientes" [.num 2] (by decide) rfl
  · exact C8_locator_priority.2.1 (.obj [("a", .num 1), ("b", .arr [.str "x"])])
      ["users"] ["a"] [] "b" [.str "x"] (by decide) rfl (by decide) rfl
  · exact C8_locator_priority.2.2.1 (.arr [.num 7]) ["users"] [.num 7]
      (by decide) (by decide) rfl
  · exact C8_locator_priority.2.2.2 (.obj [("a", .num 1)]) ["users"]
      (by decide) (by decide) (fun es h => by cases h)

/-- C10: orphan deletion deletes exactly the persisted key values that
are non-null, trim to a nonempty string, and whose trimmed form is
absent from the keep-set; null and blank keys are never deleted; and a
disabled flag deletes nothing. -/
theorem C10_orphan_deletion :
    (∀ (allExisting : List (Option String)) (keep : List String)
        (k : Option String),
      k ∈ deleteOrphansByKey true allExisting keep ↔
        (k ∈ allExisting ∧ ∃ s, k = some s ∧ jsTrim s ≠ "" ∧ jsTrim s ∉ keep))
    ∧ (∀ (allExisting : List (Option String)) (keep : List String),
        (none : Option String) ∉ deleteOrphansByKey true allExisting keep)
    ∧ (∀ (allExisting : List (Option String)) (keep : List String) (s : String),
        jsTrim s = "" → some s ∉ deleteOrphansByKey true allExisting keep)
    ∧ (∀ (allExisting : List (Option String)) (keep : List String),
        deleteOrphansByKey false allExisting keep = []) := by
  have hmem : ∀ (allExisting : List (Option String)) (keep : List String)
      (k : Option String),
      k ∈ deleteOrphansByKey true allExisting keep ↔
        (k ∈ allExisting ∧ ∃ s, k = some s ∧ jsTrim s ≠ "" ∧ jsTrim s ∉ keep) := by
    intro allExisting keep k
    unfold deleteOrphansByKey orphanKeysToDelete
    rw [if_pos rfl, List.mem_filter]
    constructor
    · rintro ⟨hmem, hprop⟩
      refine ⟨hmem, ?_⟩
      cases k with
      | none => simp at hprop
      | some s =>
        by_cases ht : jsTrim s = ""
        · simp [ht] at hprop
        · refine ⟨s, rfl, ht, ?_⟩
          simp only [ht, if_false] at hprop
          simpa using hprop
    · rintro ⟨hmem, s, rfl, ht, hk⟩
      refine ⟨hmem, ?_⟩
      simp only [ht, if_false]
      simpa using hk
  refine ⟨hmem, ?_, ?_, ?_⟩
  · intro allExisting keep hc
    obtain ⟨_, s, hs, _, _⟩ := (hmem allExisting keep none).mp hc
    cases hs
  · intro allExisting keep s ht hc
    obtain ⟨_, s2, hs2, ht2, _⟩ := (hmem allExisting keep (some s)).mp hc
    cases hs2
    exact ht2 ht
  · intro allExisting keep
    unfold deleteOrphansByKey
    rfl

/-- Witness for C10 at a concrete store: a live orphan is deleted, a
blank key and a null key are not, and a kept key is not. -/
theorem C10_witness :
    some "A" ∈ deleteOrphansByKey true [some "A", none, some " ", some "B"] ["B"]
    ∧ some " " ∉ deleteOrphansByKey true [some "A", none, some " ", some "B"] ["B"]
    ∧ (none : Option String)
        ∉ deleteOrphansByKey true [some "A", none, some " ", some "B"] ["B"] := by
  refine ⟨?_, ?_, ?_⟩
  · exact (C10_orphan_deletion.1 _ _ _).mpr ⟨by decide, "A", rfl, by decide, by decide⟩
  · exact C10_orphan_deletion.2.2.1 _ _ " " (by decide)
  · exact C10_orphan_deletion.2.1 _ _

/-- C9 counterexample: a customer whose resolved code is the zero-date
lookalike `"0000-00-00"` (kept intact by `normalizeCodigo`) has the
`cliente_codigo` of its extracted order rows nulled by the zero-date
scrub of line 450 — refuting "every extracted order row has a non-null
cliente_codigo". -/
theorem C9_counterexample :
    pedidoClienteCodigo ⟨some "0000-00-00", none, none, [()], []⟩ = none
    ∧ produtoClienteCodigo ⟨some "0000-00-00", none, none, [()], []⟩ = none := by
  decide

/-- C9 amended: unless the resolved customer code matches a zero-date
sentinel (in which case the scrub nulls it), every extracted order and
product row carries a non-null, nonempty `cliente_codigo`; a customer
with no resolvable identity yields the sentinel `"0"`; and the
placeholder set computed before the order/product writes contains every
referenced nonempty code absent from the customer batch, including `"0"`
whenever a row resolved to `''` or `"0"` with no `"0"` customer present. -/
theorem C9_sentinel_ownership :
    (∀ c : ClienteInput,
      isLikelyZeroDate (jsOrZero (normalizeCodigo
        (some (resolveClienteCodigo c)))) = false →
      ∃ s, pedidoClienteCodigo c = some s ∧ s ≠ "")
    ∧ (∀ c : ClienteInput,
      isLikelyZeroDate (jsOrZeroStr (resolveClienteCodigo c)) = false →
      ∃ s, produtoClienteCodigo c = some s ∧ s ≠ "")
    ∧ (∀ c : ClienteInput, c.codigo = none → c.cliente_codigo = none →
      c.id = none →
      resolveClienteCodigo c = "0" ∧ pedidoClienteCodigo c = some "0" ∧
        produtoClienteCodigo c = some "0")
    ∧ (∀ (doc : List ClienteInput) (code : String), code ∈ usedCodes doc →
      code ≠ "" → code ∉ existingSet doc → code ∈ missingCodes doc)
    ∧ (∀ doc : List ClienteInput,
      ("" ∈ usedCodes doc ∨ "0" ∈ usedCodes doc) →
      "0" ∉ existingSet doc → "0" ∈ missingCodes doc) := by
  have hjz : ∀ v : Option String, jsOrZero v ≠ "" := by
    intro v
    cases v with
    | none => simp [jsOrZero]
    | some s =>
      by_cases h : s = "" <;> simp [jsOrZero, jsOrZeroStr, h]
  have hjzs : ∀ s : String, jsOrZeroStr s ≠ "" := by
    intro s
    by_cases h : s = "" <;> simp [jsOrZeroStr, h]
  refine ⟨?_, ?_, ?_, ?_, ?_⟩
  · intro c h
    refine ⟨jsOrZero (normalizeCodigo (some (resolveClienteCodigo c))), ?_, hjz _⟩
    unfold pedidoClienteCodigo scrubZero
    simp [h]
  · intro c h
    refine ⟨jsOrZeroStr (resolveClienteCodigo c), ?_, hjzs _⟩
    unfold produtoClienteCodigo scrubZero
    simp [h]
  · intro c h1 h2 h3
    have hf : firstIdField c = "" := by
      unfold firstIdField
      simp only [h1, h2, h3]
    have hres : resolveClienteCodigo c = "0" := by
      unfold resolveClienteCodigo
      rw [hf]
      decide
    refine ⟨hres, ?_, ?_⟩
    · unfold pedidoClienteCodigo
      rw [hres]
      decide
    · unfold produtoClienteCodigo
      rw [hres]
      decide
  · intro doc code hused hne hnotex
    unfold missingCodes
    rw [mem_dedupFirst]
    have hmem : code ∈ (usedCodes doc).filter
        (fun c => c ≠ "" && !((existingSet doc).contains c)) := by
      rw [List.mem_filter]
      refine ⟨hused, ?_⟩
      simp [hne, hnotex]
    split
    · exact List.mem_append_left _ hmem
    · exact hmem
  · intro doc hused hnotex
    unfold missingCodes
    rw [mem_dedupFirst]
    split
    · exact List.mem_append_right _ (by simp)
    · next hfalse =>
        exfalso
        rcases hused with h | h <;> simp [h, hnotex] at hfalse

/-- Witness for the amended C9: a customer identified only by `id` is
referenced but absent from the customer batch (the batch drops `id`), so
its code lands in the placeholder set; the identity-free customer's rows
carry the sentinel `"0"`, which also lands in the placeholder set. -/
theorem C9_witness :
    "X" ∈ missingCodes [⟨none, none, some "X", [()], []⟩]
    ∧ "0" ∈ missingCodes [⟨none, none, none, [()], []⟩]
    ∧ pedidoClienteCodigo ⟨none, none, none, [()], []⟩ = some "0" := by
  refine ⟨?_, ?_, ?_⟩
  · exact C9_sentinel_ownership.2.2.2.1 _ "X" (by decide) (by decide) (by decide)
  · exact C9_sentinel_ownership.2.2.2.2 _ (by decide) (by decide)
  · exact (C9_sentinel_ownership.2.2.1 _ rfl rfl rfl).2.1

end SyncGeneral
